import Mathlib

/-!
# A shallow embedding of the `emitter` channel-based pubsub package

This file embeds the core of `emitter.go` (flags, middlewares, the
registry, `matched`, `getMiddlewares`, `send`, `pushEvent`, `On`, `Off`,
`Listeners` and `Emit`) as executable Lean definitions, and proves or
refutes the specification claims about them.

Modelling conventions:

* Go machine integers holding flag bitmasks are modelled as `Nat` with
  bitwise `|||`; the flag constants are the exact powers of two from the
  `const` block of `emitter.go` (`FlagOnce = 1 << 1`, ...).
* `path.Match` is an external standard-library function behind the
  repository's `Matcher` interface (`matcher.go`); the embedding is
  parameterised by a matcher `pm : String → String → Except Unit Bool`
  where `.error ()` stands for `ErrBadPattern` (Go returns
  `matched = false` together with the error).  Concrete witnesses use
  `pathMatchLit`, the literal-pattern/`"*"` fragment of `path.Match`.
* A Go channel of events is a bounded queue; the channel value itself is
  modelled by a numeric identity (handles are compared with `==` in
  `Off`) plus a store mapping identities to queue states.  Closing a
  channel removes it from the store and appends its identity to a close
  log, so a double close is visible as a duplicate in the log and a send
  on a closed channel as a lookup miss (which Go punishes with a panic).
* `select` nondeterminism in `send`: when both the `done` receive and
  the channel send are ready Go chooses randomly; the model takes the
  scheduler's choice as an explicit boolean argument `takeDone`.  When
  only one branch is ready the model follows Go: `default` fires only if
  no other branch is ready.  A blocking send with no ready branch
  returns `none` (in the sequential model there is no concurrent
  receiver, so the operation suspends forever).
* Goroutines: every async delivery task immediately re-acquires the
  registry mutex, so all deliveries and registry mutations are serialised
  by that mutex.  The model therefore runs the spawned tasks (and the
  deferred `Off` calls) sequentially after the dispatch loop, which is a
  legal schedule of the real program.
-/

namespace Emitter

/-- `Flag` constants from `emitter.go` (`FlagOnce Flag = 1 << iota`, with
`FlagReset` explicitly `0`). -/
def FlagReset : Nat := 0

/-- `FlagOnce = 1 << 1`. -/
def FlagOnce : Nat := 2

/-- `FlagVoid = 1 << 2`. -/
def FlagVoid : Nat := 4

/-- `FlagSkip = 1 << 3`. -/
def FlagSkip : Nat := 8

/-- `FlagClose = 1 << 4`. -/
def FlagClose : Nat := 16

/-- `FlagSync = 1 << 5`. -/
def FlagSync : Nat := 32

/-- The flag test idiom used throughout `emitter.go`:
`(flags | flag) == flags`. -/
def hasFlag (flags flag : Nat) : Bool := (flags ||| flag) == flags

/-- Modelled from the spec: the `Event` value (its Go definition lives in
`event.go`, which is not among the provided sources; §3 of the spec lists
exactly these fields).  The heterogeneous `Args []interface{}` tuple is
modelled as a list of opaque numeric values — no claim inspects argument
contents. -/
structure Event where
  Topic : String
  OriginalTopic : String
  Flags : Nat
  Args : List Nat
deriving Repr, DecidableEq

/-- A Go middleware `func(*Event)` mutates the event in place; the model
uses a function from events to events. -/
abbrev Middleware := Event → Event

/-- `func Reset(e *Event) { e.Flags = FlagReset }` -/
def Reset : Middleware := fun e => { e with Flags := FlagReset }

/-- `func Once(e *Event) { e.Flags = e.Flags | FlagOnce }` -/
def Once : Middleware := fun e => { e with Flags := e.Flags ||| FlagOnce }

/-- `func Void(e *Event) { e.Flags = e.Flags | FlagVoid }` -/
def Void : Middleware := fun e => { e with Flags := e.Flags ||| FlagVoid }

/-- `func Skip(e *Event) { e.Flags = e.Flags | FlagSkip }` -/
def Skip : Middleware := fun e => { e with Flags := e.Flags ||| FlagSkip }

/-- `func Close(e *Event) { e.Flags = e.Flags | FlagClose }` -/
def Close : Middleware := fun e => { e with Flags := e.Flags ||| FlagClose }

/-- `func Sync(e *Event) { e.Flags = e.Flags | FlagSync }` -/
def Sync : Middleware := fun e => { e with Flags := e.Flags ||| FlagSync }

/-- `applyMiddlewares` (emitter.go:330-334): apply each middleware in
order to the event. -/
def applyMiddlewares (e : Event) (fns : List Middleware) : Event :=
  fns.foldl (fun acc f => f acc) e

/-- The abstract matcher: `pm pattern name` stands for
`path.Match(pattern, name)`; `.error ()` is `ErrBadPattern` (Go then also
reports `matched = false`). -/
abbrev PatternMatcher := String → String → Except Unit Bool

/-- A concrete matcher instance used by witnesses: the fragment of Go's
`path.Match` for patterns that are either the single star `"*"` or
literal strings without metacharacters, matched against separator-free
names.  On that fragment `path.Match(pattern, name)` is
`pattern == "*" || pattern == name` and never errors. -/
def pathMatchLit : PatternMatcher := fun pattern name =>
  .ok (pattern == "*" || pattern == name)

/-- `emitter.matched` (emitter.go:336-351), parameterised by the stored
topic keys in iteration order: an error from `path.Match(topic, k)` is
returned immediately; a reverse-direction error from
`path.Match(k, topic)` is discarded. -/
def matchedGo (pm : PatternMatcher) (topic : String) : List String → Except Unit (List String)
  | [] => .ok []
  | k :: ks =>
    match pm topic k with
    | .error e => .error e
    | .ok true =>
      match matchedGo pm topic ks with
      | .error e => .error e
      | .ok rest => .ok (k :: rest)
    | .ok false =>
      match pm k topic with
      | .ok true =>
        match matchedGo pm topic ks with
        | .error e => .error e
        | .ok rest => .ok (k :: rest)
      | _ => matchedGo pm topic ks

/-- `emitter.getMiddlewares` (emitter.go:318-328): both match errors are
discarded (`if match, _ := ...`); middlewares of every pattern matching
the topic in either direction are appended in iteration order. -/
def getMiddlewaresGo (pm : PatternMatcher) (mws : List (String × List Middleware))
    (topic : String) : List Middleware :=
  mws.foldl
    (fun acc pv =>
      match pm pv.1 topic with
      | .ok true => acc ++ pv.2
      | _ =>
        match pm topic pv.1 with
        | .ok true => acc ++ pv.2
        | _ => acc)
    []

/-- The state of one listener channel: a bounded FIFO of events.  The
capacity is fixed when `newListener` creates the channel. -/
structure ChanSt where
  cap : Nat
  buf : List Event
deriving Repr, DecidableEq

/-- The `done` channel of one `Emit` call (`make(chan error, 1)`):
`hasValue` records whether the single error slot is occupied and
`closed` whether the channel has been closed. -/
structure DoneSt where
  hasValue : Bool
  closed : Bool
deriving Repr, DecidableEq

/-- A receive from `done` is ready (does not block) iff the channel is
closed or carries a buffered value. -/
def doneReady (d : DoneSt) : Bool := d.closed || d.hasValue

/-- A send on the listener channel is ready iff the bounded buffer has
room (in the sequential model no concurrent receiver exists, so an
unbuffered channel is never ready). -/
def chanReady (c : ChanSt) : Bool := c.buf.length < c.cap

/-- `send` (emitter.go:357-379): the two-or-three-way `select`.  Returns
`(sent, canceled)` plus the updated channel, or `none` when `wait` holds
and no branch is ready (the Go select suspends).  `takeDone` resolves the
scheduler's choice when both the `done` receive and the channel send are
ready. -/
def sendGo (done : DoneSt) (ch : ChanSt) (e : Event) (wait takeDone : Bool) :
    Option (Bool × Bool × ChanSt) :=
  if doneReady done && (takeDone || !chanReady ch) then
    some (false, true, ch)
  else if chanReady ch then
    some (true, false, { ch with buf := ch.buf ++ [e] })
  else if !wait then
    some (false, false, ch)
  else
    none

/-- `pushEvent` (emitter.go:290-316): unwind the flags, perform the
send with `wait = !(isSkip || isClose)`, then compute the removal
request.  Result is `(success, remove, channel')`; the Go `err` result is
always `nil`. -/
def pushEventGo (done : DoneSt) (ch : ChanSt) (event : Event) (takeDone : Bool) :
    Option (Bool × Bool × ChanSt) :=
  let isOnce := hasFlag event.Flags FlagOnce
  let isSkip := hasFlag event.Flags FlagSkip
  let isClose := hasFlag event.Flags FlagClose
  match sendGo done ch event (!(isSkip || isClose)) takeDone with
  | none => none
  | some (sent, canceled, ch') =>
    let remove :=
      if !sent && !canceled then isClose
      else if !canceled then isOnce
      else false
    some (sent, remove, ch')

/-- `listener` (emitter.go:103-106): the channel value is modelled by its
numeric identity (the handle compared with `==` in `Off`). -/
structure Listener where
  ch : Nat
  middlewares : List Middleware

/-- First-match association-list lookup, standing in for a Go map read;
`On` keeps keys unique, so first match is the unique match. -/
def lookupL (m : List (String × α)) (k : String) : Option α :=
  (m.find? (fun p => p.1 == k)).map (·.2)

/-- Association-list update of an existing key (Go map assignment; the
caller only uses it on present keys). -/
def setL (m : List (String × α)) (k : String) (v : α) : List (String × α) :=
  m.map (fun p => if p.1 == k then (k, v) else p)

/-- Association-list key deletion (Go `delete`). -/
def delL (m : List (String × α)) (k : String) : List (String × α) :=
  m.filter (fun p => p.1 != k)

/-- Channel-store update at one identity. -/
def setCh (chans : List (Nat × ChanSt)) (id : Nat) (c : ChanSt) : List (Nat × ChanSt) :=
  chans.map (fun p => if p.1 == id then (id, c) else p)

/-- Channel-store lookup. -/
def lookupCh (chans : List (Nat × ChanSt)) (id : Nat) : Option ChanSt :=
  (chans.find? (fun p => p.1 == id)).map (·.2)

/-- The whole bus state: the `emitter` struct (listeners map, default
capacity, middlewares map) together with the model's channel store, the
log of closed channel identities, and the fresh-identity counter for
`make(chan Event, capacity)`. -/
structure Sys where
  listeners : List (String × List Listener)
  capacity : Nat
  middlewares : List (String × List Middleware)
  chans : List (Nat × ChanSt)
  closedLog : List Nat
  nextId : Nat

/-- `New` (emitter.go:58-64): empty maps, given capacity. -/
def newSys (capacity : Nat) : Sys :=
  { listeners := [], capacity := capacity, middlewares := [], chans := [],
    closedLog := [], nextId := 0 }

/-- `On` (emitter.go:127-137): create a listener with the current default
capacity and append it under the exact topic key.  Returns the new state
and the channel handle. -/
def onGo (s : Sys) (topic : String) (mws : List Middleware) : Sys × Nat :=
  let id := s.nextId
  let c : ChanSt := { cap := s.capacity, buf := [] }
  let listeners' :=
    match lookupL s.listeners topic with
    | some ls => setL s.listeners topic (ls ++ [⟨id, mws⟩])
    | none => s.listeners ++ [(topic, [⟨id, mws⟩])]
  ({ s with listeners := listeners', chans := s.chans ++ [(id, c)], nextId := id + 1 }, id)

/-- `close(listeners[i].ch)`: the channel leaves the store and its
identity is appended to the close log (a duplicate in the log is Go's
close-of-closed-channel panic). -/
def closeChan (s : Sys) (id : Nat) : Sys :=
  { s with chans := s.chans.filter (fun p => p.1 != id),
           closedLog := s.closedLog ++ [id] }

/-- The per-topic body of `Off` (emitter.go:149-174): with no handle
arguments close every listener (reverse order); otherwise, for each
handle, close and drop the listeners whose channel equals it.  An empty
surviving sequence deletes the topic key. -/
def offTopic (chans : List Nat) (s : Sys) («_topic» : String) : Sys :=
  match lookupL s.listeners _topic with
  | some listeners =>
    let step :=
      if chans.isEmpty then
        ((listeners.reverse).foldl (fun s l => closeChan s l.ch) s, ([] : List Listener))
      else
        chans.foldl
          (fun (acc : Sys × List Listener) curr =>
            ((acc.2.reverse.filter (fun l => l.ch == curr)).foldl
                (fun s l => closeChan s l.ch) acc.1,
              acc.2.filter (fun l => l.ch != curr)))
          (s, listeners)
    let s' := { step.1 with listeners := setL step.1.listeners _topic step.2 }
    if step.2.isEmpty then { s' with listeners := delL s'.listeners _topic } else s'
  | none =>
    -- `len(e.listeners[_topic]) == 0` holds for a missing key; deleting it
    -- is a no-op
    s

/-- `Off` (emitter.go:141-177): on a matcher error nothing is mutated and
the error is returned; otherwise every matched topic is processed. -/
def offGo (pm : PatternMatcher) (s : Sys) (topic : String) (chans : List Nat) :
    Except Unit Sys :=
  match matchedGo pm topic (s.listeners.map (·.1)) with
  | .error e => .error e
  | .ok mtch => .ok (mtch.foldl (offTopic chans) s)

/-- `Listeners` (emitter.go:181-198): the handles of every listener under
a matched topic, in match order; the matcher error is surfaced. -/
def listenersGo (pm : PatternMatcher) (s : Sys) (topic : String) :
    Except Unit (List Nat) :=
  match matchedGo pm topic (s.listeners.map (·.1)) with
  | .error e => .error e
  | .ok mtch =>
    .ok (mtch.foldl
      (fun acc t => acc ++ ((lookupL s.listeners t).getD []).map (·.ch)) [])

/-- The mutable state of one `Emit` call while the dispatch loop and its
spawned tasks run: the bus state, the `done` channel, the `haveToWait`
flag and waiter-goroutine count, the count of direct (unguarded)
`close(done)` executions, the successful sends `(channel, event)` in
order, the spawned async deliveries in spawn order, the deferred
`Off(topic, ch)` calls of the sync path in LIFO order, and whether the
run panicked (double close / send on closed channel) or suspended forever
(a blocking send with no receiver). -/
structure LoopSt where
  s : Sys
  done : DoneSt
  haveToWait : Bool
  waiters : Nat
  directCloses : Nat
  sends : List (Nat × Event)
  tasks : List (Listener × Event)
  defers : List (String × Nat)
  panicked : Bool
  stuck : Bool

/-- The body of the listener `Loop` of `Emit` (emitter.go:244-272) for a
single listener: copy the topic event, apply the listener middlewares,
short-circuit on `Void`, then either push synchronously (recording a
deferred `Off` on removal) or spawn an async delivery task. -/
def deliverOne (event : Event) (ls : LoopSt) (lstnr : Listener) : LoopSt :=
  if ls.panicked || ls.stuck then ls else
  let evn := applyMiddlewares event lstnr.middlewares
  if hasFlag evn.Flags FlagVoid then ls
  else if hasFlag evn.Flags FlagSync then
    match lookupCh ls.s.chans lstnr.ch with
    | none => { ls with panicked := true }   -- send on a closed channel panics
    | some c =>
      match pushEventGo ls.done c evn false with
      | none => { ls with stuck := true }
      | some (success, remove, c') =>
        { ls with
          s := { ls.s with chans := setCh ls.s.chans lstnr.ch c' },
          sends := ls.sends ++ (if success then [(lstnr.ch, evn)] else []),
          defers := (if remove then [(event.Topic, lstnr.ch)] else []) ++ ls.defers }
  else
    { ls with haveToWait := true, tasks := ls.tasks ++ [(lstnr, evn)] }

/-- The close block that the source places *inside* the topic loop
(emitter.go:274-282): spawn a waiter goroutine if `haveToWait`, otherwise
close `done` directly — a second direct close of an already-closed `done`
is a panic (this branch has no `recover`). -/
def closeBlock (ls : LoopSt) : LoopSt :=
  if ls.panicked || ls.stuck then ls
  else if ls.haveToWait then { ls with waiters := ls.waiters + 1 }
  else if ls.done.closed then { ls with panicked := true }
  else { ls with done := { ls.done with closed := true },
                 directCloses := ls.directCloses + 1 }

/-- The body of the topic loop of `Emit` (emitter.go:229-284): build the
base event, run the topic-wide middlewares, `continue` on `Void` (which
also skips this iteration's close block), deliver to the listeners in
reverse index order, then run the close block. -/
def doTopic (pm : PatternMatcher) (topic : String) (args : List Nat)
    (ls : LoopSt) («_topic» : String) : LoopSt :=
  if ls.panicked || ls.stuck then ls else
  let listeners := (lookupL ls.s.listeners _topic).getD []
  let event := applyMiddlewares
    { Topic := _topic, OriginalTopic := topic, Flags := 0, Args := args }
    (getMiddlewaresGo pm ls.s.middlewares _topic)
  if hasFlag event.Flags FlagVoid then ls
  else closeBlock ((listeners.reverse).foldl (deliverOne event) ls)

/-- One deferred `defer e.Off(event.Topic, lstnr.ch)` of the sync path,
run when `Emit` returns; the returned error is discarded. -/
def runDefer (pm : PatternMatcher) (ls : LoopSt) (d : String × Nat) : LoopSt :=
  if ls.panicked || ls.stuck then ls else
  match offGo pm ls.s d.1 [d.2] with
  | .error _ => ls
  | .ok s' => { ls with s := s' }

/-- One spawned async delivery goroutine (emitter.go:262-270): it
re-acquires the registry mutex, performs `pushEvent`, and on removal runs
its deferred `Off(event.Topic, lstnr.ch)` at exit. -/
def runTask (pm : PatternMatcher) (ls : LoopSt) (t : Listener × Event) : LoopSt :=
  if ls.panicked || ls.stuck then ls else
  match lookupCh ls.s.chans t.1.ch with
  | none => { ls with panicked := true }
  | some c =>
    match pushEventGo ls.done c t.2 false with
    | none => { ls with stuck := true }
    | some (success, remove, c') =>
      let ls' := { ls with
        s := { ls.s with chans := setCh ls.s.chans t.1.ch c' },
        sends := ls.sends ++ (if success then [(t.1.ch, t.2)] else []) }
      if remove then
        match offGo pm ls'.s t.2.Topic [t.1.ch] with
        | .error _ => ls'
        | .ok s' => { ls' with s := s' }
      else ls'

/-- The waiter goroutines (emitter.go:275-279): once every spawned task
has called `wg.Done()`, close `done`; `recover()` guards the close, so an
already-closed `done` is left as is.  If a task is stuck the counter
never reaches zero and no waiter closes `done`. -/
def finishWaiters (ls : LoopSt) : LoopSt :=
  if ls.panicked || ls.stuck then ls
  else if 0 < ls.waiters then
    if ls.done.closed then ls else { ls with done := { ls.done with closed := true } }
  else ls

/-- The observable outcome of one `Emit` call after the dispatch loop,
the deferred `Off` calls, the spawned tasks, and the waiters have run. -/
structure EmitOut where
  st : Sys
  done : DoneSt
  directCloses : Nat
  waiters : Nat
  sends : List (Nat × Event)
  panicked : Bool
  stuck : Bool

/-- `Emit` (emitter.go:215-288).  On a matcher error the error is pushed
onto `done` and `done` is closed.  Otherwise the topic loop runs under
the lock; at return the deferred `Off` calls of the sync path run (LIFO),
then the spawned delivery tasks (each serialised on the registry mutex,
with its own deferred `Off`), then the waiter goroutines. -/
def emitGo (pm : PatternMatcher) (s : Sys) (topic : String) (args : List Nat) :
    EmitOut :=
  match matchedGo pm topic (s.listeners.map (·.1)) with
  | .error _ =>
    { st := s, done := { hasValue := true, closed := true }, directCloses := 1,
      waiters := 0, sends := [], panicked := false, stuck := false }
  | .ok mtch =>
    let ls0 : LoopSt :=
      { s := s, done := { hasValue := false, closed := false }, haveToWait := false,
        waiters := 0, directCloses := 0, sends := [], tasks := [], defers := [],
        panicked := false, stuck := false }
    let ls1 := mtch.foldl (doTopic pm topic args) ls0
    let ls2 := ls1.defers.foldl (runDefer pm) ls1
    let ls3 := ls2.tasks.foldl (runTask pm) ls2
    let ls4 := finishWaiters ls3
    { st := ls4.s, done := ls4.done, directCloses := ls4.directCloses,
      waiters := ls4.waiters, sends := ls4.sends, panicked := ls4.panicked,
      stuck := ls4.stuck }

/-- The initial in-flight state of a publish (`Emit`, emitter.go:215-228),
named for reuse in proofs: the fresh done signal, no waiters, nothing
sent, spawned or deferred yet. -/
def initLS (s : Sys) : LoopSt :=
  { s := s, done := { hasValue := false, closed := false }, haveToWait := false,
    waiters := 0, directCloses := 0, sends := [], tasks := [], defers := [],
    panicked := false, stuck := false }

/-- The tail of the publish pipeline after the topic loop: the deferred
`Off` calls, then the spawned tasks, then the waiters (the last three
phases of `emitGo`, named for reuse in proofs). -/
def postLoop (pm : PatternMatcher) (ls1 : LoopSt) : LoopSt :=
  finishWaiters ((ls1.defers.foldl (runDefer pm) ls1).tasks.foldl (runTask pm)
    (ls1.defers.foldl (runDefer pm) ls1))

/-! ## Lock/suspension traces

An abstraction of `Emit`'s two delivery paths recording only the
mutex operations and the suspension points, for the lock-discipline
claim.  A `select` with a ready `default` branch never suspends. -/

/-- The lock-relevant primitive actions of a delivery. -/
inductive EmitAction where
  | lockMu
  | unlockMu
  | awaitSelect
deriving Repr, DecidableEq

/-- The suspension behaviour of `pushEvent`/`send` (emitter.go:290-316,
357-379): with `wait = !(isSkip || isClose)` the select has no `default`
branch and suspends until the send or the `done` receive is ready;
otherwise it never suspends. -/
def pushEventActions (flags : Nat) : List EmitAction :=
  if !(hasFlag flags FlagSkip || hasFlag flags FlagClose) then
    [EmitAction.awaitSelect]
  else []

/-- The async delivery goroutine (emitter.go:262-270):
`e.mu.Lock(); pushEvent(...); wg.Done(); e.mu.Unlock()`. -/
def asyncDeliveryActions (flags : Nat) : List EmitAction :=
  [EmitAction.lockMu] ++ pushEventActions flags ++ [EmitAction.unlockMu]

/-- The sync delivery path: `Emit` holds the mutex from line 216 through
line 286 and calls `pushEvent` inline at line 255. -/
def syncDeliveryActions (flags : Nat) : List EmitAction :=
  [EmitAction.lockMu] ++ pushEventActions flags ++ [EmitAction.unlockMu]

/-- Scan a trace with the current lock depth; `true` iff some suspension
point occurs while the lock is held. -/
def suspendsLockedAux : Nat → List EmitAction → Bool
  | _, [] => false
  | d, EmitAction.lockMu :: r => suspendsLockedAux (d + 1) r
  | d, EmitAction.unlockMu :: r => suspendsLockedAux (d - 1) r
  | d, EmitAction.awaitSelect :: r => decide (0 < d) || suspendsLockedAux d r

/-- `true` iff the trace reaches a suspension point while holding the
registry mutex. -/
def suspendsLocked (t : List EmitAction) : Bool := suspendsLockedAux 0 t

/-! ## Concrete scenario states

Small bus states used to evaluate the model at the inputs that decide
the claims.  Each is reachable by `New`/`Use`/`On` calls. -/

/-- `New(1); Use("*", Sync); On("a"); On("b")`: two stored topics, every
delivery synchronous. -/
def sTwoSync : Sys :=
  { listeners := [("a", [⟨0, []⟩]), ("b", [⟨1, []⟩])],
    capacity := 1, middlewares := [("*", [Sync])],
    chans := [(0, ⟨1, []⟩), (1, ⟨1, []⟩)], closedLog := [], nextId := 2 }

/-- `New(1); Use("*", Void); On("test")`: the whole topic suppressed. -/
def sVoidTopic : Sys :=
  { listeners := [("test", [⟨0, []⟩])], capacity := 1,
    middlewares := [("*", [Void])],
    chans := [(0, ⟨1, []⟩)], closedLog := [], nextId := 1 }

/-- `New(1); Use("*", Sync); On("test", Void); On("test")`: listener 0
suppressed by its own middleware, listener 1 plain. -/
def sVoidListener : Sys :=
  { listeners := [("test", [⟨0, [Void]⟩, ⟨1, []⟩])], capacity := 1,
    middlewares := [("*", [Sync])],
    chans := [(0, ⟨1, []⟩), (1, ⟨1, []⟩)], closedLog := [], nextId := 2 }

/-- `New(1); On("test", Sync, Once)`: a buffered Once listener whose send
succeeds. -/
def sOnce : Sys :=
  { listeners := [("test", [⟨0, [Sync, Once]⟩])], capacity := 1,
    middlewares := [],
    chans := [(0, ⟨1, []⟩)], closedLog := [], nextId := 1 }

/-- `New(0); On("test", Sync, Once, Skip)`: an unbuffered Once listener
whose non-blocking send fails (queue would block). -/
def sOnceSkip : Sys :=
  { listeners := [("test", [⟨0, [Sync, Once, Skip]⟩])], capacity := 0,
    middlewares := [],
    chans := [(0, ⟨0, []⟩)], closedLog := [], nextId := 1 }

/-- `true` iff a match result is a successful `true` (no error). -/
def isOkTrue : Except Unit Bool → Bool
  | .ok true => true
  | _ => false

/-- `true` iff an `Except` result is not an error. -/
def isOkE : Except Unit α → Bool
  | .ok _ => true
  | .error _ => false

/-- The bi-directional selection predicate of the spec: pattern `p` is
selected for topic `t` iff `match(p, t)` or `match(t, p)` succeeds. -/
def biMatch (pm : PatternMatcher) (t p : String) : Bool :=
  isOkTrue (pm p t) || isOkTrue (pm t p)

/-- Association-list write that also handles a fresh key (Go map
assignment `e.middlewares[pattern] = middlewares`). -/
def putL (m : List (String × α)) (k : String) (v : α) : List (String × α) :=
  if (lookupL m k).isSome then setL m k v else m ++ [(k, v)]

/-- `Use` (emitter.go:110-123): validate the pattern with a probe match
against `"---"`, then store the middleware list; an empty list deletes
the entry. -/
def useGo (pm : PatternMatcher) (s : Sys) (pattern : String)
    (mws : List Middleware) : Except Unit Sys :=
  match pm pattern "---" with
  | .error e => .error e
  | .ok _ =>
    let m := putL s.middlewares pattern mws
    if mws.isEmpty then .ok { s with middlewares := delL m pattern }
    else .ok { s with middlewares := m }

/-- A public registry operation; the close-exactly-once claim quantifies
over arbitrary sequences of these.  All queue closes happen inside `Off`
under the registry mutex (the sync path's deferred `Off`s and the async
tasks' deferred `Off`s included), so serialized operation sequences cover
every interleaving's close behaviour. -/
inductive Op where
  | onOp (topic : String) (mws : List Middleware)
  | offOp (topic : String) (chans : List Nat)
  | useOp (pattern : String) (mws : List Middleware)
  | emitOp (topic : String) (args : List Nat)

/-- Apply one public operation; a returned matcher error leaves the
state unchanged, as in the source (the error is raised before any
mutation). -/
def applyOp (pm : PatternMatcher) (s : Sys) : Op → Sys
  | .onOp t m => (onGo s t m).1
  | .offOp t cs =>
    match offGo pm s t cs with
    | .error _ => s
    | .ok s' => s'
  | .useOp p m =>
    match useGo pm s p m with
    | .error _ => s
    | .ok s' => s'
  | .emitOp t a => (emitGo pm s t a).st

/-- The channel identities of a listener sequence. -/
def chIds (l : List Listener) : List Nat := l.map Listener.ch

/-- All channel identities stored in a listeners map. -/
def entriesIds (m : List (String × List Listener)) : List Nat :=
  (m.map (fun p => chIds p.2)).flatten

/-- The registry invariant behind the close-exactly-once property: topic
keys are unique, every stored channel identity is unique, fresh bounds
hold, no stored channel has been closed, and no channel was closed
twice. -/
structure SysInv (s : Sys) : Prop where
  nk : (s.listeners.map (·.1)).Nodup
  nr : (entriesIds s.listeners).Nodup
  rlt : ∀ i ∈ entriesIds s.listeners, i < s.nextId
  llt : ∀ i ∈ s.closedLog, i < s.nextId
  dj : ∀ i ∈ entriesIds s.listeners, i ∉ s.closedLog
  nl : s.closedLog.Nodup

/-! ### Projections for the per-listener isolation claim

`exceptCh a` (and friends) forget everything about channel `a`; the
isolation claim compares two runs that differ only in listener `a`'s
middlewares through these projections. -/

/-- The channel store with channel `a` removed. -/
def exceptCh (a : Nat) (ch : List (Nat × ChanSt)) : List (Nat × ChanSt) :=
  ch.filter (fun p => p.1 != a)

/-- The successful sends not directed at channel `a`. -/
def exceptSends (a : Nat) (s : List (Nat × Event)) : List (Nat × Event) :=
  s.filter (fun p => p.1 != a)

/-- The deferred removals not aimed at channel `a`. -/
def exceptDefers (a : Nat) (d : List (String × Nat)) : List (String × Nat) :=
  d.filter (fun p => p.2 != a)

/-- The spawned delivery tasks not owned by channel `a`. -/
def exceptTasks (a : Nat) (t : List (Listener × Event)) : List (Listener × Event) :=
  t.filter (fun p => p.1.ch != a)

/-- All stored listeners, except those on channel `a`. -/
def lview (a : Nat) (m : List (String × List Listener)) : List Listener :=
  ((m.map (·.2)).flatten).filter (fun l => l.ch != a)

/-- A registry holding at most the single topic key `T`, with no empty
entry (the shape maintained by a single-topic publish and its deferred
removals). -/
def SingleKey (T : String) (m : List (String × List Listener)) : Prop :=
  m = [] ∨ ∃ l, m = [(T, l)] ∧ l ≠ []

/-- Two in-flight publish states that agree on everything except
channel `a`'s listener, queue, sends, removal requests and tasks. -/
structure IsoCore (T : String) (a : Nat) (x y : LoopSt) : Prop where
  sk1 : SingleKey T x.s.listeners
  sk2 : SingleKey T y.s.listeners
  reg : lview a x.s.listeners = lview a y.s.listeners
  chans : exceptCh a x.s.chans = exceptCh a y.s.chans
  sends : exceptSends a x.sends = exceptSends a y.sends
  defers : exceptDefers a x.defers = exceptDefers a y.defers
  tasks : exceptTasks a x.tasks = exceptTasks a y.tasks

/-- Replace only the listeners map of an in-flight publish state. -/
def withListeners (m : List (String × List Listener)) (ls : LoopSt) : LoopSt :=
  { ls with s := { ls.s with listeners := m } }

/-- A matcher instance with one syntactically invalid pattern: `"["`
errors when used as a pattern (as Go's `path.Match` does for an
unterminated character class); every other pattern is literal. -/
def pmBracket : PatternMatcher := fun pattern name =>
  if pattern = "[" then .error () else .ok (pattern == name)

/-- A bus with one listener stored under the invalid pattern `"["`. -/
def sBracket : Sys :=
  { listeners := [("[", [⟨0, []⟩])], capacity := 1, middlewares := [],
    chans := [(0, ⟨1, []⟩)], closedLog := [], nextId := 1 }

/-! ## Claim theorems -/

/-- C1: evaluation of the code at the failing inputs.  The claim says the
done signal is closed exactly once for every input topic, including zero
and several matched topics; the code places the close block inside the
topic loop (emitter.go:274-282), so (a) with two matched all-sync topics
the direct `close(done)` runs once per topic and the second close panics,
and (b) with zero matched topics the loop body never runs and `done` is
never closed and never receives a value. -/
theorem c1_done_close_eval :
    (emitGo pathMatchLit sTwoSync "*" []).panicked = true
    ∧ (emitGo pathMatchLit sTwoSync "*" []).directCloses = 1
    ∧ (emitGo pathMatchLit (newSys 0) "nomatch" []).done.closed = false
    ∧ (emitGo pathMatchLit (newSys 0) "nomatch" []).done.hasValue = false
    ∧ (emitGo pathMatchLit (newSys 0) "nomatch" []).waiters = 0 :=
  ⟨rfl, rfl, rfl, rfl, rfl⟩

/-- C7: evaluation at the failing input.  Void does short-circuit every
send (both topic-wide and per-listener), but with `Use("*", Void)` the
topic-level `continue` (emitter.go:241) also skips the close block, so
the publish's done signal is never closed — the publication does not
complete.  Per-listener Void suppresses only that listener and the
publish completes. -/
theorem c7_void_eval :
    ((emitGo pathMatchLit sVoidTopic "test" []).sends = []
      ∧ (emitGo pathMatchLit sVoidTopic "test" []).done.closed = false
      ∧ (emitGo pathMatchLit sVoidTopic "test" []).waiters = 0
      ∧ (emitGo pathMatchLit sVoidTopic "test" []).panicked = false
      ∧ (emitGo pathMatchLit sVoidTopic "test" []).stuck = false)
    ∧ ((emitGo pathMatchLit sVoidListener "test" []).sends
        = [(1, { Topic := "test", OriginalTopic := "test", Flags := 32, Args := [] })]
      ∧ (emitGo pathMatchLit sVoidListener "test" []).done.closed = true) :=
  ⟨⟨rfl, rfl, rfl, rfl, rfl⟩, ⟨rfl, rfl⟩⟩

/-- C2 counterexample: the claim says the registry mutex is never held at
a suspension point; but for a plain delivery (no Skip/Close, so
`pushEvent` suspends in its select) both the async goroutine
(emitter.go:262-270) and the sync path hold the mutex across
`pushEvent`. -/
theorem c2_mutex_counterexample :
    suspendsLocked (asyncDeliveryActions FlagReset) = true
    ∧ suspendsLocked (syncDeliveryActions FlagReset) = true :=
  ⟨rfl, rfl⟩

/-- C2 amended: the registry mutex IS held at the send/cancellation
suspension point.  For every effective flag set whose delivery blocks
(neither Skip nor Close present), both the sync path and the async
delivery task reach the select suspension with the registry lock held,
so a slow consumer does block concurrent registry operations. -/
theorem c2_mutex_held_amended (flags : Nat)
    (hs : hasFlag flags FlagSkip = false) (hc : hasFlag flags FlagClose = false) :
    suspendsLocked (asyncDeliveryActions flags) = true
    ∧ suspendsLocked (syncDeliveryActions flags) = true := by
  constructor <;>
    simp [suspendsLocked, asyncDeliveryActions, syncDeliveryActions,
      pushEventActions, hs, hc, suspendsLockedAux]

/-- C2 witness: the amended theorem applied at a concrete flag set. -/
theorem c2_mutex_held_witness :
    suspendsLocked (asyncDeliveryActions FlagOnce) = true
    ∧ suspendsLocked (syncDeliveryActions FlagOnce) = true :=
  c2_mutex_held_amended FlagOnce (by decide) (by decide)

/-- C4: a delivery whose effective flags include Skip or Close is
non-blocking — `pushEvent`'s select has a default branch and always
returns; and when the queue would block (channel not ready) and no
cancellation is pending, the default branch is taken: the event is
dropped, and removal is requested exactly when Close is among the flags
(so Close wins over Skip). -/
theorem c4_skip_close_nonblocking (done : DoneSt) (ch : ChanSt) (e : Event) (td : Bool)
    (h : hasFlag e.Flags FlagSkip = true ∨ hasFlag e.Flags FlagClose = true) :
    (pushEventGo done ch e td).isSome = true
    ∧ (chanReady ch = false → doneReady done = false →
        pushEventGo done ch e td = some (false, hasFlag e.Flags FlagClose, ch)) := by
  have hw : (hasFlag e.Flags FlagSkip || hasFlag e.Flags FlagClose) = true := by
    rcases h with h | h <;> simp [h]
  constructor
  · simp only [pushEventGo, sendGo, hw]
    cases hd : doneReady done <;> cases hc : chanReady ch <;> cases td <;> simp
  · intro hc hd
    simp [pushEventGo, sendGo, hw, hc, hd]

/-- C4 witness: a Skip-only and a Skip+Close delivery on a full
unbuffered queue, with no cancellation pending. -/
theorem c4_skip_close_witness :
    (pushEventGo ⟨false, false⟩ ⟨0, []⟩ ⟨"t", "t", 8, []⟩ false).isSome = true
    ∧ pushEventGo ⟨false, false⟩ ⟨0, []⟩ ⟨"t", "t", 8, []⟩ false
        = some (false, false, ⟨0, []⟩)
    ∧ pushEventGo ⟨false, false⟩ ⟨0, []⟩ ⟨"t", "t", 24, []⟩ false
        = some (false, true, ⟨0, []⟩) := by
  refine ⟨(c4_skip_close_nonblocking _ _ _ _ (Or.inl (by decide))).1, ?_, ?_⟩
  · have h := (c4_skip_close_nonblocking ⟨false, false⟩ ⟨0, []⟩ ⟨"t", "t", 8, []⟩ false
      (Or.inl (by decide))).2 (by decide) (by decide)
    simpa using h
  · have h := (c4_skip_close_nonblocking ⟨false, false⟩ ⟨0, []⟩ ⟨"t", "t", 24, []⟩ false
      (Or.inr (by decide))).2 (by decide) (by decide)
    simpa using h

/-- Definitional unfolding of `pushEventGo` used by several proofs. -/
theorem pushEventGo_eq (done : DoneSt) (ch : ChanSt) (e : Event) (td : Bool) :
    pushEventGo done ch e td =
      match sendGo done ch e (!(hasFlag e.Flags FlagSkip || hasFlag e.Flags FlagClose)) td with
      | none => none
      | some (sent, canceled, c) =>
        some (sent,
          if !sent && !canceled then hasFlag e.Flags FlagClose
          else if !canceled then hasFlag e.Flags FlagOnce else false, c) := rfl

/-- C6: a canceled delivery is a no-op.  If the select commits to the
cancellation branch (the `done` receive), `pushEvent` reports neither
success nor removal, the listener's queue is unchanged — for every flag
combination on the event. -/
theorem c6_canceled_noop (done : DoneSt) (ch : ChanSt) (e : Event) (td : Bool) (ch' : ChanSt)
    (h : sendGo done ch e (!(hasFlag e.Flags FlagSkip || hasFlag e.Flags FlagClose)) td
          = some (false, true, ch')) :
    pushEventGo done ch e td = some (false, false, ch') ∧ ch' = ch := by
  have hch : ch' = ch := by
    unfold sendGo at h
    split at h
    · exact (by simpa using h.symm)
    · split at h
      · simp at h
      · split at h
        · simp at h
        · simp at h
  refine ⟨?_, hch⟩
  rw [pushEventGo_eq, h]
  simp

/-- C6 witness: a cancellation pending on `done` aborts a plain blocking
delivery with no effect. -/
theorem c6_canceled_noop_witness :
    sendGo ⟨false, true⟩ ⟨0, []⟩ ⟨"t", "t", 2, []⟩
        (!(hasFlag (2 : Nat) FlagSkip || hasFlag (2 : Nat) FlagClose)) true
      = some (false, true, ⟨0, []⟩)
    ∧ pushEventGo ⟨false, true⟩ ⟨0, []⟩ ⟨"t", "t", 2, []⟩ true
      = some (false, false, ⟨0, []⟩) :=
  ⟨by decide, (c6_canceled_noop ⟨false, true⟩ ⟨0, []⟩ ⟨"t", "t", 2, []⟩ true ⟨0, []⟩
      (by decide)).1⟩

/-- C5: Once removes after success.  (1) A successful push requests
removal exactly when Once is among the effective flags; (2) a canceled
send never requests removal; (3) a failed (queue-would-block) send
without Close never requests removal; (4) for a buffered Sync+Once
listener the send succeeds and `Emit` removes the listener and closes its
queue before returning (so before any next publish dispatches); (5) for a
Sync+Once+Skip listener whose send fails, the listener survives and its
queue stays open. -/
theorem c5_once_removes (done : DoneSt) (ch ch' : ChanSt) (e : Event) (td : Bool) :
    (∀ r, pushEventGo done ch e td = some (true, r, ch') →
        r = hasFlag e.Flags FlagOnce)
    ∧ (sendGo done ch e (!(hasFlag e.Flags FlagSkip || hasFlag e.Flags FlagClose)) td
          = some (false, true, ch') →
        pushEventGo done ch e td = some (false, false, ch'))
    ∧ (sendGo done ch e (!(hasFlag e.Flags FlagSkip || hasFlag e.Flags FlagClose)) td
          = some (false, false, ch') → hasFlag e.Flags FlagClose = false →
        pushEventGo done ch e td = some (false, false, ch'))
    ∧ ((emitGo pathMatchLit sOnce "test" []).st.listeners = []
      ∧ (emitGo pathMatchLit sOnce "test" []).st.closedLog = [0]
      ∧ (emitGo pathMatchLit sOnce "test" []).sends.map Prod.fst = [0])
    ∧ ((emitGo pathMatchLit sOnceSkip "test" []).st.listeners.map
          (fun p => (p.1, p.2.map Listener.ch)) = [("test", [0])]
      ∧ (emitGo pathMatchLit sOnceSkip "test" []).st.closedLog = []) := by
  refine ⟨?_, ?_, ?_, ⟨rfl, rfl, rfl⟩, ⟨rfl, rfl⟩⟩
  · intro r h
    rw [pushEventGo_eq] at h
    cases hs : sendGo done ch e
        (!(hasFlag e.Flags FlagSkip || hasFlag e.Flags FlagClose)) td with
    | none => rw [hs] at h; simp at h
    | some v =>
      obtain ⟨sent, canceled, c⟩ := v
      rw [hs] at h
      simp only [Option.some.injEq, Prod.mk.injEq] at h
      obtain ⟨h1, h2, h3⟩ := h
      subst h1
      cases canceled with
      | true =>
        exfalso
        unfold sendGo at hs
        split at hs
        · simp at hs
        · split at hs
          · simp at hs
          · split at hs
            · simp at hs
            · simp at hs
      | false => simpa using h2.symm
  · intro h
    rw [pushEventGo_eq, h]
    simp
  · intro h hcl
    rw [pushEventGo_eq, h]
    simp [hcl]

/-- C5 witness: the pushEvent parts applied at concrete inputs — a
successful Once send, a canceled Once send, and a failed Once+Skip
send. -/
theorem c5_once_removes_witness :
    pushEventGo ⟨false, false⟩ ⟨1, []⟩ ⟨"t", "t", 2, []⟩ false
      = some (true, true, ⟨1, [⟨"t", "t", 2, []⟩]⟩)
    ∧ pushEventGo ⟨false, true⟩ ⟨1, []⟩ ⟨"t", "t", 2, []⟩ true
      = some (false, false, ⟨1, []⟩)
    ∧ pushEventGo ⟨false, false⟩ ⟨0, []⟩ ⟨"t", "t", 10, []⟩ false
      = some (false, false, ⟨0, []⟩) := by
  have h1 := (c5_once_removes ⟨false, false⟩ ⟨1, []⟩ ⟨1, [⟨"t", "t", 2, []⟩]⟩
      ⟨"t", "t", 2, []⟩ false).1
  have h2 := (c5_once_removes ⟨false, true⟩ ⟨1, []⟩ ⟨1, []⟩
      ⟨"t", "t", 2, []⟩ true).2.1 (by decide)
  have h3 := (c5_once_removes ⟨false, false⟩ ⟨0, []⟩ ⟨0, []⟩
      ⟨"t", "t", 10, []⟩ false).2.2.1 (by decide) (by decide)
  refine ⟨?_, h2, h3⟩
  have := h1 true (by decide)
  decide

/-- Membership in a successful `matched` result: a stored key is selected
iff the forward match succeeds or, failing that, the reverse match
succeeds — i.e. iff either direction matches. -/
theorem matchedGo_mem (pm : PatternMatcher) (T S : String) :
    ∀ (keys l : List String), matchedGo pm T keys = .ok l →
      (S ∈ l ↔ S ∈ keys ∧ (pm T S = .ok true ∨ pm S T = .ok true)) := by
  intro keys
  induction keys with
  | nil =>
    intro l h
    simp only [matchedGo, Except.ok.injEq] at h
    subst h
    simp
  | cons k ks ih =>
    intro l h
    unfold matchedGo at h
    cases h1 : pm T k with
    | error e => rw [h1] at h; exact absurd h (by simp)
    | ok b =>
      rw [h1] at h
      cases b with
      | true =>
        cases h2 : matchedGo pm T ks with
        | error e => rw [h2] at h; exact absurd h (by simp)
        | ok rest =>
          rw [h2] at h
          injection h with h
          subst h
          constructor
          · intro hS
            rcases List.mem_cons.mp hS with rfl | hS
            · exact ⟨List.mem_cons_self _ _, Or.inl h1⟩
            · rcases (ih rest h2).mp hS with ⟨hk, hc⟩
              exact ⟨List.mem_cons_of_mem _ hk, hc⟩
          · rintro ⟨hk, hc⟩
            rcases List.mem_cons.mp hk with rfl | hk
            · exact List.mem_cons_self _ _
            · exact List.mem_cons_of_mem _ ((ih rest h2).mpr ⟨hk, hc⟩)
      | false =>
        cases h2 : pm k T with
        | ok b2 =>
          cases b2 with
          | true =>
            rw [h2] at h
            cases h3 : matchedGo pm T ks with
            | error e => rw [h3] at h; exact absurd h (by simp)
            | ok rest =>
              rw [h3] at h
              injection h with h
              subst h
              constructor
              · intro hS
                rcases List.mem_cons.mp hS with rfl | hS
                · exact ⟨List.mem_cons_self _ _, Or.inr h2⟩
                · rcases (ih rest h3).mp hS with ⟨hk, hc⟩
                  exact ⟨List.mem_cons_of_mem _ hk, hc⟩
              · rintro ⟨hk, hc⟩
                rcases List.mem_cons.mp hk with rfl | hk
                · exact List.mem_cons_self _ _
                · exact List.mem_cons_of_mem _ ((ih rest h3).mpr ⟨hk, hc⟩)
          | false =>
            rw [h2] at h
            constructor
            · intro hS
              rcases (ih l h).mp hS with ⟨hk, hc⟩
              exact ⟨List.mem_cons_of_mem _ hk, hc⟩
            · rintro ⟨hk, hc⟩
              rcases List.mem_cons.mp hk with rfl | hk
              · rcases hc with hc | hc
                · rw [h1] at hc; exact absurd hc (by simp)
                · rw [h2] at hc; exact absurd hc (by simp)
              · exact (ih l h).mpr ⟨hk, hc⟩
        | error e2 =>
          rw [h2] at h
          constructor
          · intro hS
            rcases (ih l h).mp hS with ⟨hk, hc⟩
            exact ⟨List.mem_cons_of_mem _ hk, hc⟩
          · rintro ⟨hk, hc⟩
            rcases List.mem_cons.mp hk with rfl | hk
            · rcases hc with hc | hc
              · rw [h1] at hc; exact absurd hc (by simp)
              · rw [h2] at hc; exact absurd hc (by simp)
            · exact (ih l h).mpr ⟨hk, hc⟩

/-- The accumulator form of `getMiddlewares`: the fold appends exactly
the middleware lists of the entries selected by the bi-directional
predicate, in registration order. -/
theorem gmFold_acc (pm : PatternMatcher) (topic : String) :
    ∀ (mws : List (String × List Middleware)) (acc : List Middleware),
      mws.foldl
        (fun acc pv =>
          match pm pv.1 topic with
          | .ok true => acc ++ pv.2
          | _ =>
            match pm topic pv.1 with
            | .ok true => acc ++ pv.2
            | _ => acc)
        acc
      = acc ++ ((mws.filter (fun pv => biMatch pm topic pv.1)).map Prod.snd).flatten := by
  intro mws
  induction mws with
  | nil => intro acc; simp
  | cons pv mws ih =>
    intro acc
    rw [List.foldl_cons]
    have hstep :
        (match pm pv.1 topic with
          | .ok true => acc ++ pv.2
          | _ =>
            match pm topic pv.1 with
            | .ok true => acc ++ pv.2
            | _ => acc)
        = acc ++ (if biMatch pm topic pv.1 then pv.2 else []) := by
      cases h1 : pm pv.1 topic with
      | ok b1 =>
        cases b1 with
        | true => simp [biMatch, isOkTrue, h1]
        | false =>
          cases h2 : pm topic pv.1 with
          | ok b2 => cases b2 <;> simp [biMatch, isOkTrue, h1, h2]
          | error e2 => simp [biMatch, isOkTrue, h1, h2]
      | error e1 =>
        cases h2 : pm topic pv.1 with
        | ok b2 => cases b2 <;> simp [biMatch, isOkTrue, h1, h2]
        | error e2 => simp [biMatch, isOkTrue, h1, h2]
    rw [hstep, ih]
    by_cases hb : biMatch pm topic pv.1 = true
    · simp [hb, List.filter_cons, List.append_assoc]
    · simp only [Bool.not_eq_true] at hb
      simp [hb, List.filter_cons]

/-- `getMiddlewares` selects exactly the registered patterns matching the
topic in either direction. -/
theorem getMiddlewaresGo_eq (pm : PatternMatcher)
    (mws : List (String × List Middleware)) (topic : String) :
    getMiddlewaresGo pm mws topic
      = ((mws.filter (fun pv => biMatch pm topic pv.1)).map Prod.snd).flatten := by
  have h := gmFold_acc pm topic mws []
  simpa [getMiddlewaresGo] using h

/-- C9: bi-directional matching.  For a successful `matched` computation
(used by Emit, Off and Listeners), a stored topic `S` is selected iff it
is stored and `match(T, S)` or `match(S, T)` holds; and the topic-wide
middleware lookup selects exactly the registered patterns matching the
topic by the same bi-directional rule. -/
theorem c9_bidirectional_matching (pm : PatternMatcher) (keys : List String)
    (T S : String) (l : List String) (h : matchedGo pm T keys = .ok l)
    (mws : List (String × List Middleware)) (T' : String) :
    (S ∈ l ↔ S ∈ keys ∧ (pm T S = .ok true ∨ pm S T = .ok true))
    ∧ getMiddlewaresGo pm mws T'
        = ((mws.filter (fun pv => biMatch pm T' pv.1)).map Prod.snd).flatten :=
  ⟨matchedGo_mem pm T S keys l h, getMiddlewaresGo_eq pm mws T'⟩

/-- C9 witness: `publish("foo")` selects a listener stored under `"*"`
through the reverse match, and the middleware lookup for `"foo"` selects
a `"*"` entry. -/
theorem c9_bidirectional_matching_witness :
    matchedGo pathMatchLit "foo" ["*"] = .ok ["*"]
    ∧ ("*" ∈ ["*"] ↔ "*" ∈ ["*"]
        ∧ (pathMatchLit "foo" "*" = .ok true ∨ pathMatchLit "*" "foo" = .ok true))
    ∧ getMiddlewaresGo pathMatchLit [("*", [Sync])] "foo"
        = (([("*", [Sync])].filter
            (fun pv => biMatch pathMatchLit "foo" pv.1)).map Prod.snd).flatten := by
  have h := c9_bidirectional_matching pathMatchLit ["*"] "foo" "*" ["*"] rfl
    [("*", [Sync])] "foo"
  exact ⟨rfl, h.1, h.2⟩

/-- One-step unfolding of `matched` at a cons cell. -/
theorem matchedGo_cons (pm : PatternMatcher) (T k : String) (ks : List String) :
    matchedGo pm T (k :: ks) =
      match pm T k with
      | .error e => .error e
      | .ok true =>
        match matchedGo pm T ks with
        | .error e => .error e
        | .ok rest => .ok (k :: rest)
      | .ok false =>
        match pm k T with
        | .ok true =>
          match matchedGo pm T ks with
          | .error e => .error e
          | .ok rest => .ok (k :: rest)
        | _ => matchedGo pm T ks := rfl

/-- `matched` fails iff some forward match (input topic as the pattern)
fails; stored-side (reverse) errors never surface. -/
theorem matchedGo_isOk (pm : PatternMatcher) (T : String) :
    ∀ keys : List String,
      isOkE (matchedGo pm T keys) = keys.all (fun k => isOkE (pm T k)) := by
  intro keys
  induction keys with
  | nil => rfl
  | cons k ks ih =>
    rw [List.all_cons, ← ih, matchedGo_cons]
    cases h1 : pm T k with
    | error e => simp [isOkE]
    | ok b =>
      cases b with
      | true =>
        cases h2 : matchedGo pm T ks with
        | error e => simp [isOkE, h2]
        | ok rest => simp [isOkE, h2]
      | false =>
        cases h2 : pm k T with
        | ok b2 =>
          cases b2 with
          | true =>
            cases h3 : matchedGo pm T ks with
            | error e => simp [isOkE, h3]
            | ok rest => simp [isOkE, h3]
          | false => simp [isOkE]
        | error e2 => simp [isOkE]

/-- `deliverOne` never touches the `done` channel. -/
theorem deliverOne_done (event : Event) (ls : LoopSt) (l : Listener) :
    (deliverOne event ls l).done = ls.done := by
  unfold deliverOne
  dsimp only
  repeat' split
  all_goals rfl

/-- Folding `deliverOne` over a listener list never touches `done`. -/
theorem foldl_deliverOne_done (event : Event) (L : List Listener) :
    ∀ ls : LoopSt, (L.foldl (deliverOne event) ls).done = ls.done := by
  induction L with
  | nil => intro ls; rfl
  | cons x xs ih =>
    intro ls
    rw [List.foldl_cons, ih (deliverOne event ls x), deliverOne_done]

/-- The close block may close `done` but never stores a value in it. -/
theorem closeBlock_done_hasValue (ls : LoopSt) :
    (closeBlock ls).done.hasValue = ls.done.hasValue := by
  unfold closeBlock
  repeat' split
  all_goals rfl

/-- `doTopic` may close `done` but never stores a value in it. -/
theorem doTopic_done_hasValue (pm : PatternMatcher) (t : String) (a : List Nat)
    (ls : LoopSt) (k : String) :
    (doTopic pm t a ls k).done.hasValue = ls.done.hasValue := by
  have hfold := foldl_deliverOne_done
    (applyMiddlewares { Topic := k, OriginalTopic := t, Flags := 0, Args := a }
      (getMiddlewaresGo pm ls.s.middlewares k))
    ((lookupL ls.s.listeners k).getD []).reverse ls
  unfold doTopic
  dsimp only
  repeat' split
  · rfl
  · rfl
  · rw [closeBlock_done_hasValue, hfold]

/-- Folding `doTopic` preserves the absence of a value in `done`. -/
theorem foldl_doTopic_done_hasValue (pm : PatternMatcher) (t : String) (a : List Nat)
    (M : List String) :
    ∀ ls : LoopSt,
      (M.foldl (doTopic pm t a) ls).done.hasValue = ls.done.hasValue := by
  induction M with
  | nil => intro ls; rfl
  | cons x xs ih =>
    intro ls
    rw [List.foldl_cons, ih (doTopic pm t a ls x), doTopic_done_hasValue]

/-- `runDefer` never touches `done`. -/
theorem runDefer_done (pm : PatternMatcher) (ls : LoopSt) (d : String × Nat) :
    (runDefer pm ls d).done = ls.done := by
  unfold runDefer
  repeat' split
  all_goals rfl

/-- Folding `runDefer` never touches `done`. -/
theorem foldl_runDefer_done (pm : PatternMatcher) (D : List (String × Nat)) :
    ∀ ls : LoopSt, (D.foldl (runDefer pm) ls).done = ls.done := by
  induction D with
  | nil => intro ls; rfl
  | cons x xs ih =>
    intro ls
    rw [List.foldl_cons, ih (runDefer pm ls x), runDefer_done]

/-- `runTask` never touches `done`. -/
theorem runTask_done (pm : PatternMatcher) (ls : LoopSt) (t : Listener × Event) :
    (runTask pm ls t).done = ls.done := by
  unfold runTask
  dsimp only
  repeat' split
  all_goals rfl

/-- Folding `runTask` never touches `done`. -/
theorem foldl_runTask_done (pm : PatternMatcher) (Ts : List (Listener × Event)) :
    ∀ ls : LoopSt, (Ts.foldl (runTask pm) ls).done = ls.done := by
  induction Ts with
  | nil => intro ls; rfl
  | cons x xs ih =>
    intro ls
    rw [List.foldl_cons, ih (runTask pm ls x), runTask_done]

/-- The waiters may close `done` but never store a value in it. -/
theorem finishWaiters_done_hasValue (ls : LoopSt) :
    (finishWaiters ls).done.hasValue = ls.done.hasValue := by
  unfold finishWaiters
  dsimp only
  repeat' split
  all_goals rfl

/-- `Emit` puts a value on the done signal iff the matcher errors on the
caller's input topic. -/
theorem emitGo_done_hasValue (pm : PatternMatcher) (s : Sys) (T : String)
    (args : List Nat) :
    (emitGo pm s T args).done.hasValue
      = !(isOkE (matchedGo pm T (s.listeners.map (·.1)))) := by
  unfold emitGo
  cases h : matchedGo pm T (s.listeners.map (·.1)) with
  | error e => simp [isOkE]
  | ok mtch =>
    simp only [isOkE, Bool.not_true]
    rw [finishWaiters_done_hasValue, foldl_runTask_done, foldl_runDefer_done,
      foldl_doTopic_done_hasValue]

/-- C10: matcher errors surface asymmetrically.  `matched` (hence `Off`,
`Listeners`) fails iff the caller's input topic fails as a pattern
against some stored key; `Emit` pushes an error on the done signal under
exactly the same condition; a stored topic whose reverse match errors is
silently treated as non-matching; and a registered middleware pattern
that errors as a pattern (and is not matched in the reverse direction)
is silently ignored — an invalid stored entry never makes an operation
fail. -/
theorem c10_error_asymmetry (pm : PatternMatcher) (s : Sys) (T : String)
    (cs : List Nat) (args : List Nat) (p : String) (v : List Middleware)
    (mws : List (String × List Middleware)) (k : String) (l : List String)
    (hp : isOkE (pm p T) = false) (hr : ¬ pm T p = .ok true)
    (hml : matchedGo pm T (s.listeners.map (·.1)) = .ok l)
    (hkf : pm T k = .ok false) (hke : isOkE (pm k T) = false) :
    (isOkE (matchedGo pm T (s.listeners.map (·.1)))
        = (s.listeners.map (·.1)).all (fun x => isOkE (pm T x)))
    ∧ (isOkE (offGo pm s T cs)
        = isOkE (matchedGo pm T (s.listeners.map (·.1))))
    ∧ (isOkE (listenersGo pm s T)
        = isOkE (matchedGo pm T (s.listeners.map (·.1))))
    ∧ ((emitGo pm s T args).done.hasValue
        = !(isOkE (matchedGo pm T (s.listeners.map (·.1)))))
    ∧ k ∉ l
    ∧ getMiddlewaresGo pm ((p, v) :: mws) T = getMiddlewaresGo pm mws T := by
  refine ⟨matchedGo_isOk pm T _, ?_, ?_, emitGo_done_hasValue pm s T args, ?_, ?_⟩
  · unfold offGo
    cases h : matchedGo pm T (s.listeners.map (·.1)) <;> simp [isOkE]
  · unfold listenersGo
    cases h : matchedGo pm T (s.listeners.map (·.1)) <;> simp [isOkE]
  · intro hk
    rcases (matchedGo_mem pm T k _ l hml).mp hk with ⟨_, hc | hc⟩
    · rw [hkf] at hc
      exact absurd hc (by simp)
    · rw [hc] at hke
      exact absurd hke (by simp [isOkE])
  · rw [getMiddlewaresGo_eq, getMiddlewaresGo_eq]
    have hb : biMatch pm T p = false := by
      unfold biMatch
      cases h1 : pm p T with
      | error e =>
        cases h2 : pm T p with
        | ok b2 =>
          cases b2 with
          | true => exact absurd h2 hr
          | false => simp [isOkTrue, h1, h2]
        | error e2 => simp [isOkTrue, h1, h2]
      | ok b1 => rw [h1] at hp; exact absurd hp (by simp [isOkE])
    rw [List.filter_cons]
    simp [hb]

/-- C10 witness: a listener stored under the invalid pattern `"["` makes
no operation with input topic `"a"` fail, and an invalid middleware
pattern is silently ignored. -/
theorem c10_error_asymmetry_witness :
    isOkE (pmBracket "[" "a") = false
    ∧ ¬ pmBracket "a" "[" = .ok true
    ∧ matchedGo pmBracket "a" (sBracket.listeners.map (·.1)) = .ok []
    ∧ pmBracket "a" "[" = .ok false
    ∧ (isOkE (offGo pmBracket sBracket "a" [])
        = isOkE (matchedGo pmBracket "a" (sBracket.listeners.map (·.1))))
    ∧ (isOkE (listenersGo pmBracket sBracket "a")
        = isOkE (matchedGo pmBracket "a" (sBracket.listeners.map (·.1))))
    ∧ ((emitGo pmBracket sBracket "a" []).done.hasValue
        = !(isOkE (matchedGo pmBracket "a" (sBracket.listeners.map (·.1)))))
    ∧ "[" ∉ ([] : List String)
    ∧ getMiddlewaresGo pmBracket [("[", [Void])] "a" = getMiddlewaresGo pmBracket [] "a" := by
  have h1 : isOkE (pmBracket "[" "a") = false := by simp [pmBracket, isOkE]
  have h2 : ¬ pmBracket "a" "[" = .ok true := by simp [pmBracket]
  have h3 : matchedGo pmBracket "a" (sBracket.listeners.map (·.1)) = .ok [] := by
    simp [pmBracket, sBracket, matchedGo]
  have h4 : pmBracket "a" "[" = .ok false := by simp [pmBracket]
  have h5 : isOkE (pmBracket "[" "a") = false := h1
  have h := c10_error_asymmetry pmBracket sBracket "a" [] [] "[" [Void] [] "[" []
    h1 h2 h3 h4 h5
  exact ⟨h1, h2, h3, h4, h.2.1, h.2.2.1, h.2.2.2.1, h.2.2.2.2.1, h.2.2.2.2.2⟩

/-! ### Association-list and permutation toolbox for the registry -/

open List

/-- Swap the first two blocks of a three-block concatenation. -/
theorem perm_swap_front (a b c : List α) : a ++ (b ++ c) ~ b ++ (a ++ c) := by
  calc a ++ (b ++ c) = (a ++ b) ++ c := (List.append_assoc a b c).symm
    _ ~ (b ++ a) ++ c := (List.perm_append_comm).append_right c
    _ = b ++ (a ++ c) := List.append_assoc b a c

theorem entriesIds_cons (k : String) (v : List Listener)
    (m : List (String × List Listener)) :
    entriesIds ((k, v) :: m) = chIds v ++ entriesIds m := rfl

theorem entriesIds_append (m₁ m₂ : List (String × List Listener)) :
    entriesIds (m₁ ++ m₂) = entriesIds m₁ ++ entriesIds m₂ := by
  simp [entriesIds]

theorem lookupL_eq_none {m : List (String × α)} {k : String} :
    lookupL m k = none ↔ k ∉ m.map (·.1) := by
  induction m with
  | nil => simp [lookupL]
  | cons p m ih =>
    by_cases h : p.1 = k
    · simp [lookupL, List.find?_cons, h]
    · simp only [lookupL, List.find?_cons] at ih ⊢
      have hb : (p.1 == k) = false := by simp [h]
      simp [hb, ih, h, Ne.symm h]

theorem delL_eq_of_not_mem {m : List (String × α)} {k : String}
    (h : k ∉ m.map (·.1)) : delL m k = m := by
  induction m with
  | nil => rfl
  | cons p m ih =>
    simp only [List.map_cons, List.mem_cons] at h
    push_neg at h
    have hb : (p.1 != k) = true := by simp [bne_iff_ne]; exact fun hh => h.1 hh.symm
    have ht : delL m k = m := ih h.2
    simp only [delL, List.filter_cons, hb, if_pos] at ht ⊢
    rw [ht]

theorem setL_eq_of_not_mem {m : List (String × α)} {k : String} (v : α)
    (h : k ∉ m.map (·.1)) : setL m k v = m := by
  induction m with
  | nil => rfl
  | cons p m ih =>
    simp only [List.map_cons, List.mem_cons] at h
    push_neg at h
    have hb : (p.1 == k) = false := by
      simp only [beq_eq_false_iff_ne, ne_eq]
      exact fun hh => h.1 hh.symm
    have ht : setL m k v = m := ih h.2
    simp only [setL, List.map_cons, hb, Bool.false_eq_true, if_neg,
      not_false_iff] at ht ⊢
    rw [ht]

theorem keys_setL (m : List (String × α)) (k : String) (v : α) :
    (setL m k v).map (·.1) = m.map (·.1) := by
  induction m with
  | nil => rfl
  | cons p m ih =>
    simp only [setL, List.map_cons] at ih ⊢
    by_cases h : p.1 == k
    · have hk : p.1 = k := by simpa using h
      rw [if_pos h, ih]
      simp [hk]
    · rw [if_neg h, ih]

theorem keys_delL_sublist (m : List (String × α)) (k : String) :
    ((delL m k).map (·.1)).Sublist (m.map (·.1)) :=
  (List.filter_sublist m).map (·.1)

theorem delL_setL (m : List (String × α)) (k : String) (v : α) :
    delL (setL m k v) k = delL m k := by
  induction m with
  | nil => rfl
  | cons p m ih =>
    by_cases h : p.1 == k
    · have hbk : ((k, v).1 != k) = false := by simp [bne]
      have hb : (p.1 != k) = false := by simp [bne]; simpa using h
      simp only [setL, delL, List.map_cons, List.filter_cons, h, if_pos, hbk, hb,
        Bool.false_eq_true, if_neg, not_false_iff] at ih ⊢
      exact ih
    · have hb : (p.1 != k) = true := by simp [bne]; simpa using h
      simp only [setL, delL, List.map_cons, List.filter_cons, h, hb,
        Bool.false_eq_true, if_neg, not_false_iff, if_pos] at ih ⊢
      rw [ih]

/-- Decomposing the stored ids at a present key: the whole id list is a
permutation of the key's own ids followed by the other entries' ids. -/
theorem entriesIds_perm_of_lookup (t : String) (v : List Listener) :
    ∀ (m : List (String × List Listener)), lookupL m t = some v →
      (m.map (·.1)).Nodup →
      entriesIds m ~ chIds v ++ entriesIds (delL m t) := by
  intro m
  induction m with
  | nil => intro hv _; simp [lookupL] at hv
  | cons p m ih =>
    intro hv hnk
    by_cases hk : p.1 == t
    · have ht : p.1 = t := by simpa using hk
      have hv2 : p.2 = v := by
        simp [lookupL, List.find?_cons, hk] at hv
        exact hv
      have hnotin : t ∉ m.map (·.1) := by
        rw [← ht]
        exact (List.nodup_cons.mp (by simpa using hnk)).1
      have hdelm : delL m t = m := delL_eq_of_not_mem hnotin
      have hb : (p.1 != t) = false := by simp [bne, ht]
      obtain ⟨k0, v0⟩ := p
      simp only at ht hv2 hb
      subst ht
      subst hv2
      simp only [delL, List.filter_cons, hb]
      rw [show List.filter (fun p => p.1 != k0) m = m from hdelm]
      exact List.Perm.refl _
    · have hv' : lookupL m t = some v := by
        simpa [lookupL, List.find?_cons, hk] using hv
      have hnk' : (m.map (·.1)).Nodup := (List.nodup_cons.mp (by simpa using hnk)).2
      have hperm := ih hv' hnk'
      have hb : (p.1 != t) = true := by simp [bne, hk]
      obtain ⟨k0, v0⟩ := p
      simp only at hb
      simp only [delL, List.filter_cons, hb, if_pos]
      calc entriesIds ((k0, v0) :: m) = chIds v0 ++ entriesIds m := rfl
        _ ~ chIds v0 ++ (chIds v ++ entriesIds (delL m t)) := hperm.append_left _
        _ ~ chIds v ++ (chIds v0 ++ entriesIds (delL m t)) := perm_swap_front _ _ _
        _ = chIds v ++ entriesIds ((k0, v0) :: delL m t) := rfl

/-- Writing a present key: the stored ids become the new value's ids plus
the other entries' ids. -/
theorem entriesIds_setL_perm (t : String) (v v' : List Listener) :
    ∀ (m : List (String × List Listener)), lookupL m t = some v →
      (m.map (·.1)).Nodup →
      entriesIds (setL m t v') ~ chIds v' ++ entriesIds (delL m t) := by
  intro m
  induction m with
  | nil => intro hv _; simp [lookupL] at hv
  | cons p m ih =>
    intro hv hnk
    by_cases hk : p.1 == t
    · have ht : p.1 = t := by simpa using hk
      have hnotin : t ∉ m.map (·.1) := by
        rw [← ht]
        exact (List.nodup_cons.mp (by simpa using hnk)).1
      have hdelm : delL m t = m := delL_eq_of_not_mem hnotin
      have hsetm : setL m t v' = m := setL_eq_of_not_mem v' hnotin
      have hb : (p.1 != t) = false := by simp [bne, ht]
      obtain ⟨k0, v0⟩ := p
      simp only at ht hb
      subst ht
      simp only [setL, delL, List.map_cons, List.filter_cons, hb,
        (by simp : (k0 == k0) = true), if_pos]
      rw [show List.map (fun p => if p.1 == k0 then (k0, v') else p) m
            = setL m k0 v' from rfl,
        hsetm,
        show List.filter (fun p => p.1 != k0) m = m from hdelm]
      exact List.Perm.refl _
    · have hv' : lookupL m t = some v := by
        simpa [lookupL, List.find?_cons, hk] using hv
      have hnk' : (m.map (·.1)).Nodup := (List.nodup_cons.mp (by simpa using hnk)).2
      have hperm := ih hv' hnk'
      have hb : (p.1 != t) = true := by simp [bne, hk]
      obtain ⟨k0, v0⟩ := p
      simp only at hb hk
      simp only [setL, delL, List.map_cons, List.filter_cons, hb, hk, if_neg,
        Bool.false_eq_true, not_false_iff, if_pos]
      calc entriesIds ((k0, v0) :: setL m t v')
          = chIds v0 ++ entriesIds (setL m t v') := rfl
        _ ~ chIds v0 ++ (chIds v' ++ entriesIds (delL m t)) := hperm.append_left _
        _ ~ chIds v' ++ (chIds v0 ++ entriesIds (delL m t)) := perm_swap_front _ _ _
        _ = chIds v' ++ entriesIds ((k0, v0) :: delL m t) := rfl

/-- Closing a batch of listeners: the registry mapping is untouched, the
close log grows by exactly their identities, the counter is unchanged. -/
theorem foldl_closeChan_spec (L : List Listener) :
    ∀ s : Sys,
      (L.foldl (fun s l => closeChan s l.ch) s).listeners = s.listeners
      ∧ (L.foldl (fun s l => closeChan s l.ch) s).closedLog = s.closedLog ++ chIds L
      ∧ (L.foldl (fun s l => closeChan s l.ch) s).nextId = s.nextId := by
  induction L with
  | nil => intro s; exact ⟨rfl, by simp [chIds], rfl⟩
  | cons x xs ih =>
    intro s
    rw [List.foldl_cons]
    obtain ⟨h1, h2, h3⟩ := ih (closeChan s x.ch)
    refine ⟨h1, ?_, h3⟩
    rw [h2]
    simp [closeChan, chIds]

/-- The handle-directed removal loop of `Off` (the `chans` fold): the
registry mapping and the counter are untouched, the close log grows by
some batch `rem`, and the surviving listeners plus `rem` are a
permutation of the original listeners' identities. -/
theorem offChans_fold_spec (cs : List Nat) :
    ∀ (s : Sys) (v : List Listener),
      (cs.foldl
        (fun (acc : Sys × List Listener) curr =>
          ((acc.2.reverse.filter (fun l => l.ch == curr)).foldl
              (fun s l => closeChan s l.ch) acc.1,
            acc.2.filter (fun l => l.ch != curr)))
        (s, v)).1.listeners = s.listeners
      ∧ (cs.foldl
          (fun (acc : Sys × List Listener) curr =>
            ((acc.2.reverse.filter (fun l => l.ch == curr)).foldl
                (fun s l => closeChan s l.ch) acc.1,
              acc.2.filter (fun l => l.ch != curr)))
          (s, v)).1.nextId = s.nextId
      ∧ ∃ rem,
          (cs.foldl
            (fun (acc : Sys × List Listener) curr =>
              ((acc.2.reverse.filter (fun l => l.ch == curr)).foldl
                  (fun s l => closeChan s l.ch) acc.1,
                acc.2.filter (fun l => l.ch != curr)))
            (s, v)).1.closedLog = s.closedLog ++ rem
          ∧ chIds v ~
              chIds (cs.foldl
                (fun (acc : Sys × List Listener) curr =>
                  ((acc.2.reverse.filter (fun l => l.ch == curr)).foldl
                      (fun s l => closeChan s l.ch) acc.1,
                    acc.2.filter (fun l => l.ch != curr)))
                (s, v)).2 ++ rem := by
  induction cs with
  | nil =>
    intro s v
    exact ⟨rfl, rfl, [], by simp, by simp⟩
  | cons c cs ih =>
    intro s v
    rw [List.foldl_cons]
    obtain ⟨hc1, hc2, hc3⟩ :=
      foldl_closeChan_spec (v.reverse.filter (fun l => l.ch == c)) s
    obtain ⟨h1, h2, rem1, hlog, hperm⟩ :=
      ih ((v.reverse.filter (fun l => l.ch == c)).foldl
            (fun s l => closeChan s l.ch) s)
        (v.filter (fun l => l.ch != c))
    refine ⟨by rw [h1, hc1], by rw [h2, hc3],
      chIds (v.reverse.filter (fun l => l.ch == c)) ++ rem1, ?_, ?_⟩
    · rw [hlog, hc2, List.append_assoc]
    · have hpart : v.filter (fun l => l.ch == c) ++ v.filter (fun l => l.ch != c) ~ v := by
        have := List.filter_append_perm (fun l => l.ch == c) v
        simpa [bne] using this
      have hrev : chIds (v.reverse.filter (fun l => l.ch == c))
          ~ chIds (v.filter (fun l => l.ch == c)) := by
        refine List.Perm.map Listener.ch ?_
        exact (List.reverse_perm v).filter _
      calc chIds v
          ~ chIds (v.filter (fun l => l.ch == c) ++ v.filter (fun l => l.ch != c)) :=
            (List.Perm.map Listener.ch hpart).symm
        _ = chIds (v.filter (fun l => l.ch == c)) ++ chIds (v.filter (fun l => l.ch != c)) := by
            simp [chIds]
        _ ~ chIds (v.filter (fun l => l.ch == c)) ++
              (chIds ((cs.foldl _ (_, v.filter (fun l => l.ch != c))).2) ++ rem1) :=
            hperm.append_left _
        _ ~ chIds ((cs.foldl _ (_, v.filter (fun l => l.ch != c))).2) ++
              (chIds (v.filter (fun l => l.ch == c)) ++ rem1) := perm_swap_front _ _ _
        _ ~ chIds ((cs.foldl _ (_, v.filter (fun l => l.ch != c))).2) ++
              (chIds (v.reverse.filter (fun l => l.ch == c)) ++ rem1) :=
            List.Perm.append_left _ (hrev.symm.append_right rem1)

/-- Removal by `Off` on one matched topic: the close log grows by
exactly the identities removed from the registry, the other entries are
untouched, keys only disappear, the counter is unchanged. -/
theorem offTopic_decomp (cs : List Nat) (s : Sys) (t : String)
    (hnk : (s.listeners.map (·.1)).Nodup) :
    ∃ rem, (offTopic cs s t).closedLog = s.closedLog ++ rem
      ∧ entriesIds s.listeners ~ entriesIds (offTopic cs s t).listeners ++ rem
      ∧ ((offTopic cs s t).listeners.map (·.1)).Sublist (s.listeners.map (·.1))
      ∧ (offTopic cs s t).nextId = s.nextId := by
  unfold offTopic
  cases hl : lookupL s.listeners t with
  | none =>
    exact ⟨[], by simp, by simp, List.Sublist.refl _, rfl⟩
  | some v =>
    have hvD := entriesIds_perm_of_lookup t v s.listeners hl hnk
    cases cs with
    | nil =>
      obtain ⟨hc1, hc2, hc3⟩ := foldl_closeChan_spec v.reverse s
      simp only [List.isEmpty_nil, if_true]
      refine ⟨chIds v.reverse, ?_, ?_, ?_, ?_⟩
      · simpa using hc2
      · simp only [hc1, delL_setL]
        calc entriesIds s.listeners
            ~ chIds v ++ entriesIds (delL s.listeners t) := hvD
          _ ~ entriesIds (delL s.listeners t) ++ chIds v := List.perm_append_comm
          _ ~ entriesIds (delL s.listeners t) ++ chIds v.reverse :=
              List.Perm.append_left _
                (List.Perm.map Listener.ch (List.reverse_perm v).symm)
      · simp only [hc1, delL_setL]
        exact keys_delL_sublist s.listeners t
      · simpa using hc3
    | cons c cs' =>
      obtain ⟨h1, h2, rem0, hlog, hperm⟩ := offChans_fold_spec (c :: cs') s v
      simp only [List.isEmpty_cons, Bool.false_eq_true, if_false]
      by_cases hem :
          ((c :: cs').foldl
            (fun (acc : Sys × List Listener) curr =>
              ((acc.2.reverse.filter (fun l => l.ch == curr)).foldl
                  (fun s l => closeChan s l.ch) acc.1,
                acc.2.filter (fun l => l.ch != curr)))
            (s, v)).2.isEmpty
      · have hnil :
            ((c :: cs').foldl
              (fun (acc : Sys × List Listener) curr =>
                ((acc.2.reverse.filter (fun l => l.ch == curr)).foldl
                    (fun s l => closeChan s l.ch) acc.1,
                  acc.2.filter (fun l => l.ch != curr)))
              (s, v)).2 = [] := by
          exact List.isEmpty_iff.mp hem
        rw [if_pos hem]
        refine ⟨rem0, by simpa using hlog, ?_, ?_, by simpa using h2⟩
        · simp only [h1, delL_setL]
          rw [hnil] at hperm
          simp only [chIds, List.map_nil, List.nil_append] at hperm
          calc entriesIds s.listeners
              ~ chIds v ++ entriesIds (delL s.listeners t) := hvD
            _ ~ rem0 ++ entriesIds (delL s.listeners t) :=
                hperm.append_right _
            _ ~ entriesIds (delL s.listeners t) ++ rem0 := List.perm_append_comm
        · simp only [h1, delL_setL]
          exact keys_delL_sublist s.listeners t
      · have hsome :
            lookupL s.listeners t
              = some v := hl
        rw [if_neg hem]
        refine ⟨rem0, by simpa using hlog, ?_, ?_, by simpa using h2⟩
        · simp only [h1]
          have hset := entriesIds_setL_perm t v
            (((c :: cs').foldl
              (fun (acc : Sys × List Listener) curr =>
                ((acc.2.reverse.filter (fun l => l.ch == curr)).foldl
                    (fun s l => closeChan s l.ch) acc.1,
                  acc.2.filter (fun l => l.ch != curr)))
              (s, v)).2) s.listeners hl hnk
          calc entriesIds s.listeners
              ~ chIds v ++ entriesIds (delL s.listeners t) := hvD
            _ ~ (chIds (((c :: cs').foldl
                  (fun (acc : Sys × List Listener) curr =>
                    ((acc.2.reverse.filter (fun l => l.ch == curr)).foldl
                        (fun s l => closeChan s l.ch) acc.1,
                      acc.2.filter (fun l => l.ch != curr)))
                  (s, v)).2) ++ rem0) ++ entriesIds (delL s.listeners t) :=
                hperm.append_right _
            _ ~ chIds (((c :: cs').foldl
                  (fun (acc : Sys × List Listener) curr =>
                    ((acc.2.reverse.filter (fun l => l.ch == curr)).foldl
                        (fun s l => closeChan s l.ch) acc.1,
                      acc.2.filter (fun l => l.ch != curr)))
                  (s, v)).2) ++ (rem0 ++ entriesIds (delL s.listeners t)) := by
                rw [List.append_assoc]
            _ ~ chIds (((c :: cs').foldl
                  (fun (acc : Sys × List Listener) curr =>
                    ((acc.2.reverse.filter (fun l => l.ch == curr)).foldl
                        (fun s l => closeChan s l.ch) acc.1,
                      acc.2.filter (fun l => l.ch != curr)))
                  (s, v)).2) ++ (entriesIds (delL s.listeners t) ++ rem0) :=
                List.Perm.append_left _ List.perm_append_comm
            _ = (chIds (((c :: cs').foldl
                  (fun (acc : Sys × List Listener) curr =>
                    ((acc.2.reverse.filter (fun l => l.ch == curr)).foldl
                        (fun s l => closeChan s l.ch) acc.1,
                      acc.2.filter (fun l => l.ch != curr)))
                  (s, v)).2) ++ entriesIds (delL s.listeners t)) ++ rem0 := by
                rw [List.append_assoc]
            _ ~ entriesIds (setL s.listeners t (((c :: cs').foldl
                  (fun (acc : Sys × List Listener) curr =>
                    ((acc.2.reverse.filter (fun l => l.ch == curr)).foldl
                        (fun s l => closeChan s l.ch) acc.1,
                      acc.2.filter (fun l => l.ch != curr)))
                  (s, v)).2)) ++ rem0 :=
                hset.symm.append_right rem0
        · simp only [h1, keys_setL]
          exact List.Sublist.refl _

/-- Re-establishing the registry invariant from a removal
decomposition. -/
theorem sysInv_of_decomp {s s' : Sys} (h : SysInv s) (rem : List Nat)
    (hlog : s'.closedLog = s.closedLog ++ rem)
    (hperm : entriesIds s.listeners ~ entriesIds s'.listeners ++ rem)
    (hkeys : (s'.listeners.map (·.1)).Sublist (s.listeners.map (·.1)))
    (hnext : s'.nextId = s.nextId) : SysInv s' := by
  have hnodup : (entriesIds s'.listeners ++ rem).Nodup := hperm.nodup h.nr
  have hsub : ∀ i ∈ entriesIds s'.listeners ++ rem, i ∈ entriesIds s.listeners :=
    fun i hi => hperm.symm.subset hi
  constructor
  · exact hkeys.nodup h.nk
  · exact (List.nodup_append.mp hnodup).1
  · intro i hi
    rw [hnext]
    exact h.rlt i (hsub i (List.mem_append_left _ hi))
  · intro i hi
    rw [hlog] at hi
    rw [hnext]
    rcases List.mem_append.mp hi with hi | hi
    · exact h.llt i hi
    · exact h.rlt i (hsub i (List.mem_append_right _ hi))
  · intro i hi
    rw [hlog]
    intro hmem
    rcases List.mem_append.mp hmem with hm | hm
    · exact h.dj i (hsub i (List.mem_append_left _ hi)) hm
    · exact (List.disjoint_of_nodup_append hnodup) hi hm
  · rw [hlog]
    refine List.Nodup.append h.nl (List.nodup_append.mp hnodup).2.1 ?_
    intro i hi hir
    exact h.dj i (hsub i (List.mem_append_right _ hir)) hi

/-- `Off`'s per-topic removal preserves the registry invariant. -/
theorem offTopic_inv (cs : List Nat) (s : Sys) (t : String) (h : SysInv s) :
    SysInv (offTopic cs s t) := by
  obtain ⟨rem, hlog, hperm, hkeys, hnext⟩ := offTopic_decomp cs s t h.nk
  exact sysInv_of_decomp h rem hlog hperm hkeys hnext

/-- Folding `Off`'s per-topic removal preserves the invariant. -/
theorem foldl_offTopic_inv (cs : List Nat) (M : List String) :
    ∀ s : Sys, SysInv s → SysInv (M.foldl (offTopic cs) s) := by
  induction M with
  | nil => intro s h; exact h
  | cons x xs ih =>
    intro s h
    rw [List.foldl_cons]
    exact ih _ (offTopic_inv cs s x h)

/-- `Off` preserves the registry invariant. -/
theorem offGo_inv (pm : PatternMatcher) (s : Sys) (t : String) (cs : List Nat)
    (h : SysInv s) : ∀ s', offGo pm s t cs = .ok s' → SysInv s' := by
  intro s' hs'
  unfold offGo at hs'
  cases hm : matchedGo pm t (s.listeners.map (·.1)) with
  | error e => rw [hm] at hs'; exact absurd hs' (by simp)
  | ok mtch =>
    rw [hm] at hs'
    injection hs' with hs'
    subst hs'
    exact foldl_offTopic_inv cs mtch s h

/-- `On` preserves the registry invariant: the new channel identity is
fresh. -/
theorem onGo_inv (s : Sys) (t : String) (m : List Middleware) (h : SysInv s) :
    SysInv (onGo s t m).1 := by
  unfold onGo
  cases hl : lookupL s.listeners t with
  | some ls =>
    dsimp only
    have hperm : entriesIds (setL s.listeners t (ls ++ [⟨s.nextId, m⟩]))
        ~ entriesIds s.listeners ++ [s.nextId] := by
      calc entriesIds (setL s.listeners t (ls ++ [⟨s.nextId, m⟩]))
          ~ chIds (ls ++ [⟨s.nextId, m⟩]) ++ entriesIds (delL s.listeners t) :=
            entriesIds_setL_perm t ls _ s.listeners hl h.nk
        _ = (chIds ls ++ [s.nextId]) ++ entriesIds (delL s.listeners t) := by
            simp [chIds]
        _ ~ (chIds ls ++ entriesIds (delL s.listeners t)) ++ [s.nextId] := by
            rw [List.append_assoc, List.append_assoc]
            exact List.Perm.append_left _ List.perm_append_comm
        _ ~ entriesIds s.listeners ++ [s.nextId] :=
            ((entriesIds_perm_of_lookup t ls s.listeners hl h.nk).symm).append_right _
    have hfresh : s.nextId ∉ entriesIds s.listeners := fun hmem =>
      absurd (h.rlt _ hmem) (lt_irrefl _)
    have hnodup1 : (entriesIds s.listeners ++ [s.nextId]).Nodup := by
      refine List.Nodup.append h.nr (List.nodup_singleton _) ?_
      intro a ha hb
      simp only [List.mem_singleton] at hb
      subst hb
      exact hfresh ha
    constructor
    · simpa [keys_setL] using h.nk
    · exact hperm.symm.nodup hnodup1
    · intro i hi
      rcases List.mem_append.mp (hperm.subset hi) with hi | hi
      · exact Nat.lt_succ_of_lt (h.rlt i hi)
      · simp only [List.mem_singleton] at hi
        subst hi
        exact Nat.lt_succ_self _
    · intro i hi
      exact Nat.lt_succ_of_lt (h.llt i hi)
    · intro i hi
      rcases List.mem_append.mp (hperm.subset hi) with hi | hi
      · exact h.dj i hi
      · simp only [List.mem_singleton] at hi
        subst hi
        intro hmem
        exact absurd (h.llt _ hmem) (lt_irrefl _)
    · exact h.nl
  | none =>
    dsimp only
    have hids : entriesIds (s.listeners ++ [(t, [⟨s.nextId, m⟩])])
        = entriesIds s.listeners ++ [s.nextId] := by
      rw [entriesIds_append]
      rfl
    have hfresh : s.nextId ∉ entriesIds s.listeners := fun hmem =>
      absurd (h.rlt _ hmem) (lt_irrefl _)
    have htnew : t ∉ s.listeners.map (·.1) := lookupL_eq_none.mp hl
    constructor
    · rw [show (s.listeners ++ [(t, [(⟨s.nextId, m⟩ : Listener)])]).map (·.1)
          = s.listeners.map (·.1) ++ [t] by simp]
      refine List.Nodup.append h.nk (List.nodup_singleton _) ?_
      intro a ha hb
      simp only [List.mem_singleton] at hb
      subst hb
      exact htnew ha
    · rw [hids]
      refine List.Nodup.append h.nr (List.nodup_singleton _) ?_
      intro a ha hb
      simp only [List.mem_singleton] at hb
      subst hb
      exact hfresh ha
    · intro i hi
      rw [hids] at hi
      rcases List.mem_append.mp hi with hi | hi
      · exact Nat.lt_succ_of_lt (h.rlt i hi)
      · simp only [List.mem_singleton] at hi
        subst hi
        exact Nat.lt_succ_self _
    · intro i hi
      exact Nat.lt_succ_of_lt (h.llt i hi)
    · intro i hi
      rw [hids] at hi
      rcases List.mem_append.mp hi with hi | hi
      · exact h.dj i hi
      · simp only [List.mem_singleton] at hi
        subst hi
        intro hmem
        exact absurd (h.llt _ hmem) (lt_irrefl _)
    · exact h.nl

/-- Transferring the invariant along equal registry components. -/
theorem sysInv_transfer {s s' : Sys} (h : SysInv s)
    (h1 : s'.listeners = s.listeners) (h2 : s'.closedLog = s.closedLog)
    (h3 : s'.nextId = s.nextId) : SysInv s' := by
  constructor
  · rw [h1]; exact h.nk
  · rw [h1]; exact h.nr
  · rw [h1, h3]; exact h.rlt
  · rw [h2, h3]; exact h.llt
  · rw [h1, h2]; exact h.dj
  · rw [h2]; exact h.nl

/-- A delivery touches only the channel store, never the registry
mapping, the close log or the counter. -/
theorem deliverOne_reg (event : Event) (ls : LoopSt) (l : Listener) :
    (deliverOne event ls l).s.listeners = ls.s.listeners
    ∧ (deliverOne event ls l).s.closedLog = ls.s.closedLog
    ∧ (deliverOne event ls l).s.nextId = ls.s.nextId := by
  unfold deliverOne
  dsimp only
  repeat' split
  all_goals exact ⟨rfl, rfl, rfl⟩

theorem foldl_deliverOne_reg (event : Event) (L : List Listener) :
    ∀ ls : LoopSt,
      (L.foldl (deliverOne event) ls).s.listeners = ls.s.listeners
      ∧ (L.foldl (deliverOne event) ls).s.closedLog = ls.s.closedLog
      ∧ (L.foldl (deliverOne event) ls).s.nextId = ls.s.nextId := by
  induction L with
  | nil => intro ls; exact ⟨rfl, rfl, rfl⟩
  | cons x xs ih =>
    intro ls
    rw [List.foldl_cons]
    obtain ⟨i1, i2, i3⟩ := ih (deliverOne event ls x)
    obtain ⟨d1, d2, d3⟩ := deliverOne_reg event ls x
    exact ⟨i1.trans d1, i2.trans d2, i3.trans d3⟩

/-- The close block never touches the bus state. -/
theorem closeBlock_s (ls : LoopSt) : (closeBlock ls).s = ls.s := by
  unfold closeBlock
  repeat' split
  all_goals rfl

theorem doTopic_reg (pm : PatternMatcher) (t : String) (a : List Nat)
    (ls : LoopSt) (k : String) :
    (doTopic pm t a ls k).s.listeners = ls.s.listeners
    ∧ (doTopic pm t a ls k).s.closedLog = ls.s.closedLog
    ∧ (doTopic pm t a ls k).s.nextId = ls.s.nextId := by
  obtain ⟨f1, f2, f3⟩ := foldl_deliverOne_reg
    (applyMiddlewares { Topic := k, OriginalTopic := t, Flags := 0, Args := a }
      (getMiddlewaresGo pm ls.s.middlewares k))
    ((lookupL ls.s.listeners k).getD []).reverse ls
  unfold doTopic
  dsimp only
  repeat' split
  · exact ⟨rfl, rfl, rfl⟩
  · exact ⟨rfl, rfl, rfl⟩
  · rw [closeBlock_s]
    exact ⟨f1, f2, f3⟩

theorem foldl_doTopic_reg (pm : PatternMatcher) (t : String) (a : List Nat)
    (M : List String) :
    ∀ ls : LoopSt,
      (M.foldl (doTopic pm t a) ls).s.listeners = ls.s.listeners
      ∧ (M.foldl (doTopic pm t a) ls).s.closedLog = ls.s.closedLog
      ∧ (M.foldl (doTopic pm t a) ls).s.nextId = ls.s.nextId := by
  induction M with
  | nil => intro ls; exact ⟨rfl, rfl, rfl⟩
  | cons x xs ih =>
    intro ls
    rw [List.foldl_cons]
    obtain ⟨i1, i2, i3⟩ := ih (doTopic pm t a ls x)
    obtain ⟨d1, d2, d3⟩ := doTopic_reg pm t a ls x
    exact ⟨i1.trans d1, i2.trans d2, i3.trans d3⟩

/-- A deferred `Off` preserves the registry invariant. -/
theorem runDefer_inv (pm : PatternMatcher) (ls : LoopSt) (d : String × Nat)
    (h : SysInv ls.s) : SysInv (runDefer pm ls d).s := by
  unfold runDefer
  split
  · exact h
  · cases ho : offGo pm ls.s d.1 [d.2] with
    | error e => exact h
    | ok s' => exact offGo_inv pm ls.s d.1 [d.2] h s' ho

theorem foldl_runDefer_inv (pm : PatternMatcher) (D : List (String × Nat)) :
    ∀ ls : LoopSt, SysInv ls.s → SysInv ((D.foldl (runDefer pm) ls)).s := by
  induction D with
  | nil => intro ls h; exact h
  | cons x xs ih =>
    intro ls h
    rw [List.foldl_cons]
    exact ih _ (runDefer_inv pm ls x h)

/-- An async delivery task preserves the registry invariant. -/
theorem runTask_inv (pm : PatternMatcher) (ls : LoopSt) (t : Listener × Event)
    (h : SysInv ls.s) : SysInv (runTask pm ls t).s := by
  unfold runTask
  split
  · exact h
  · cases hc : lookupCh ls.s.chans t.1.ch with
    | none => exact h
    | some c =>
      dsimp only
      cases hp : pushEventGo ls.done c t.2 false with
      | none => exact h
      | some v =>
        obtain ⟨sent, remove, ch'⟩ := v
        dsimp only
        have hmid : SysInv
            ({ ls.s with chans := setCh ls.s.chans t.1.ch ch' } : Sys) :=
          sysInv_transfer h rfl rfl rfl
        split
        · cases ho : offGo pm
              ({ ls.s with chans := setCh ls.s.chans t.1.ch ch' } : Sys)
              t.2.Topic [t.1.ch] with
          | error e => exact hmid
          | ok s' => exact offGo_inv pm _ t.2.Topic [t.1.ch] hmid s' ho
        · exact hmid

theorem foldl_runTask_inv (pm : PatternMatcher) (Ts : List (Listener × Event)) :
    ∀ ls : LoopSt, SysInv ls.s → SysInv ((Ts.foldl (runTask pm) ls)).s := by
  induction Ts with
  | nil => intro ls h; exact h
  | cons x xs ih =>
    intro ls h
    rw [List.foldl_cons]
    exact ih _ (runTask_inv pm ls x h)

theorem finishWaiters_s (ls : LoopSt) : (finishWaiters ls).s = ls.s := by
  unfold finishWaiters
  repeat' split
  all_goals rfl

/-- `Emit` preserves the registry invariant: all of its registry
mutations go through `Off`. -/
theorem emitGo_inv (pm : PatternMatcher) (s : Sys) (T : String) (a : List Nat)
    (h : SysInv s) : SysInv (emitGo pm s T a).st := by
  unfold emitGo
  cases hm : matchedGo pm T (s.listeners.map (·.1)) with
  | error e => exact h
  | ok mtch =>
    dsimp only
    rw [finishWaiters_s]
    refine foldl_runTask_inv pm _ _ (foldl_runDefer_inv pm _ _ ?_)
    obtain ⟨f1, f2, f3⟩ := foldl_doTopic_reg pm T a mtch
      { s := s, done := { hasValue := false, closed := false }, haveToWait := false,
        waiters := 0, directCloses := 0, sends := [], tasks := [], defers := [],
        panicked := false, stuck := false }
    exact sysInv_transfer h f1 f2 f3

/-- `Use` preserves the registry invariant (it only writes the
middlewares map). -/
theorem useGo_inv (pm : PatternMatcher) (s : Sys) (p : String)
    (m : List Middleware) (h : SysInv s) :
    ∀ s', useGo pm s p m = .ok s' → SysInv s' := by
  intro s' hs'
  unfold useGo at hs'
  cases hp : pm p "---" with
  | error e => rw [hp] at hs'; exact absurd hs' (by simp)
  | ok b =>
    rw [hp] at hs'
    dsimp only at hs'
    split at hs'
    · injection hs' with hs'
      subst hs'
      exact sysInv_transfer h rfl rfl rfl
    · injection hs' with hs'
      subst hs'
      exact sysInv_transfer h rfl rfl rfl

/-- Every public operation preserves the registry invariant. -/
theorem applyOp_inv (pm : PatternMatcher) (s : Sys) (op : Op) (h : SysInv s) :
    SysInv (applyOp pm s op) := by
  cases op with
  | onOp t m => exact onGo_inv s t m h
  | offOp t cs =>
    unfold applyOp
    dsimp only
    cases ho : offGo pm s t cs with
    | error e => exact h
    | ok s' => exact offGo_inv pm s t cs h s' ho
  | useOp p m =>
    unfold applyOp
    dsimp only
    cases hu : useGo pm s p m with
    | error e => exact h
    | ok s' => exact useGo_inv pm s p m h s' hu
  | emitOp t a => exact emitGo_inv pm s t a h

/-- The empty bus satisfies the invariant. -/
theorem newSys_inv (cap : Nat) : SysInv (newSys cap) := by
  constructor
  all_goals simp [newSys, entriesIds]

theorem foldl_applyOp_inv (pm : PatternMatcher) (ops : List Op) :
    ∀ s : Sys, SysInv s → SysInv (ops.foldl (applyOp pm) s) := by
  induction ops with
  | nil => intro s h; exact h
  | cons x xs ih =>
    intro s h
    rw [List.foldl_cons]
    exact ih _ (applyOp_inv pm s x h)

/-- C3: no listener queue is ever closed twice.  Over every serialized
sequence of public operations (subscribe, explicit unsubscribe with or
without handles, middleware registration, publish with its flag-driven
auto-removal — all queue closes happen inside `Off` under the registry
mutex, so serialized sequences cover every interleaving), the close log
contains no duplicate, and every queue still stored in the registry has
never been closed: each listener's queue is closed exactly once, by the
removal path that takes it out of the registry. -/
theorem c3_no_queue_closed_twice (pm : PatternMatcher) (cap : Nat) (ops : List Op) :
    ((ops.foldl (applyOp pm) (newSys cap)).closedLog).Nodup
    ∧ ∀ i ∈ entriesIds (ops.foldl (applyOp pm) (newSys cap)).listeners,
        i ∉ (ops.foldl (applyOp pm) (newSys cap)).closedLog := by
  have h := foldl_applyOp_inv pm ops (newSys cap) (newSys_inv cap)
  exact ⟨h.nl, h.dj⟩

/-! ### Small commuting lemmas for the isolation proof -/

theorem filter_filter_comm (p q : α → Bool) (l : List α) :
    (l.filter p).filter q = (l.filter q).filter p := by
  simp only [List.filter_filter]
  congr 1
  funext x
  exact Bool.and_comm _ _

theorem lookupCh_exceptCh (a b : Nat) (hba : b ≠ a) (ch : List (Nat × ChanSt)) :
    lookupCh (exceptCh a ch) b = lookupCh ch b := by
  induction ch with
  | nil => rfl
  | cons p ch ih =>
    by_cases hb : p.1 = b
    · have hpa : (p.1 != a) = true := by simp [bne, hb, hba]
      have hbeq : (p.1 == b) = true := by simp [hb]
      simp [exceptCh, List.filter_cons, hpa, lookupCh, List.find?_cons, hbeq]
    · have hbeq : (p.1 == b) = false := by simp [hb]
      by_cases ha : (p.1 != a) = true
      · simpa [exceptCh, List.filter_cons, ha, lookupCh, List.find?_cons, hbeq]
          using ih
      · simp only [Bool.not_eq_true] at ha
        simpa [exceptCh, List.filter_cons, ha, lookupCh, List.find?_cons, hbeq]
          using ih

theorem filter_map_fix (f : α → α) (p : α → Bool) (l : List α)
    (hp : ∀ x, p (f x) = p x) (hf : ∀ x, p x = true → f x = x) :
    (l.map f).filter p = l.filter p := by
  induction l with
  | nil => rfl
  | cons x l ih =>
    rw [List.map_cons, List.filter_cons, List.filter_cons, hp x]
    cases hx : p x
    · simpa using ih
    · rw [hf x hx]
      simp [ih]

theorem filter_map_comm (f : α → α) (p : α → Bool) (l : List α)
    (hp : ∀ x, p (f x) = p x) :
    (l.map f).filter p = (l.filter p).map f := by
  induction l with
  | nil => rfl
  | cons x l ih =>
    rw [List.map_cons, List.filter_cons, List.filter_cons, hp x]
    cases hx : p x
    · simpa using ih
    · simp [ih]

theorem exceptCh_setCh_self (a : Nat) (c : ChanSt) (ch : List (Nat × ChanSt)) :
    exceptCh a (setCh ch a c) = exceptCh a ch := by
  unfold exceptCh setCh
  refine filter_map_fix _ _ ch ?_ ?_
  · intro x
    by_cases hx : x.1 = a
    · have h1 : (x.1 == a) = true := by simp [hx]
      simp [h1, bne, hx]
    · have h1 : (x.1 == a) = false := by simp [hx]
      simp [h1]
  · intro x hx
    by_cases hxa : x.1 = a
    · rw [show (x.1 != a) = false by simp [bne, hxa]] at hx
      cases hx
    · simp [show (x.1 == a) = false by simp [hxa]]

theorem exceptCh_setCh_ne (a b : Nat) (c : ChanSt)
    (ch : List (Nat × ChanSt)) :
    exceptCh a (setCh ch b c) = setCh (exceptCh a ch) b c := by
  unfold exceptCh setCh
  refine filter_map_comm _ _ ch ?_
  intro x
  by_cases hx : x.1 = b
  · have h1 : (x.1 == b) = true := by simp [hx]
    simp [h1, bne, hx]
  · have h1 : (x.1 == b) = false := by simp [hx]
    simp [h1]

/-- Closing channels (same batch) preserves agreement away from `a`. -/
theorem foldl_closeChan_chans (L : List Listener) :
    ∀ s : Sys, (L.foldl (fun s l => closeChan s l.ch) s).chans
      = L.foldl (fun ch l => ch.filter (fun p => p.1 != l.ch)) s.chans := by
  induction L with
  | nil => intro s; rfl
  | cons x xs ih =>
    intro s
    rw [List.foldl_cons, List.foldl_cons, ih (closeChan s x.ch)]
    rfl

theorem foldl_chanFilter_iso (L : List Listener)
    (a : Nat) :
    ∀ ch₁ ch₂, exceptCh a ch₁ = exceptCh a ch₂ →
      exceptCh a (L.foldl (fun ch l => ch.filter (fun p => p.1 != l.ch)) ch₁)
        = exceptCh a (L.foldl (fun ch l => ch.filter (fun p => p.1 != l.ch)) ch₂) := by
  induction L with
  | nil => intro ch₁ ch₂ h; exact h
  | cons x xs ih =>
    intro ch₁ ch₂ h
    rw [List.foldl_cons, List.foldl_cons]
    refine ih _ _ ?_
    unfold exceptCh at h ⊢
    rw [filter_filter_comm, h, ← filter_filter_comm]

theorem foldl_chanFilter_a (L : List Listener) (a : Nat)
    (hall : ∀ l ∈ L, l.ch = a) :
    ∀ ch, exceptCh a (L.foldl (fun ch l => ch.filter (fun p => p.1 != l.ch)) ch)
      = exceptCh a ch := by
  induction L with
  | nil => intro ch; rfl
  | cons x xs ih =>
    intro ch
    rw [List.foldl_cons]
    rw [ih (fun l hl => hall l (List.mem_cons_of_mem _ hl)) _]
    have hx : x.ch = a := hall x (List.mem_cons_self _ _)
    subst hx
    unfold exceptCh
    rw [List.filter_filter]
    congr 1
    funext p
    exact Bool.and_self _

/-! ### Halt-frozen lemmas: a panicked or stuck state absorbs the rest
of the pipeline. -/

theorem deliverOne_halt (e : Event) (ls : LoopSt) (l : Listener)
    (h : (ls.panicked || ls.stuck) = true) : deliverOne e ls l = ls := by
  unfold deliverOne
  rw [if_pos h]

theorem foldl_deliverOne_halt (e : Event) (L : List Listener) (ls : LoopSt)
    (h : (ls.panicked || ls.stuck) = true) :
    L.foldl (deliverOne e) ls = ls := by
  induction L with
  | nil => rfl
  | cons x xs ih => rw [List.foldl_cons, deliverOne_halt e ls x h, ih]

theorem closeBlock_halt (ls : LoopSt) (h : (ls.panicked || ls.stuck) = true) :
    closeBlock ls = ls := by
  unfold closeBlock
  rw [if_pos h]

theorem runDefer_halt (pm : PatternMatcher) (ls : LoopSt) (d : String × Nat)
    (h : (ls.panicked || ls.stuck) = true) : runDefer pm ls d = ls := by
  unfold runDefer
  rw [if_pos h]

theorem foldl_runDefer_halt (pm : PatternMatcher) (D : List (String × Nat))
    (ls : LoopSt) (h : (ls.panicked || ls.stuck) = true) :
    D.foldl (runDefer pm) ls = ls := by
  induction D with
  | nil => rfl
  | cons x xs ih => rw [List.foldl_cons, runDefer_halt pm ls x h, ih]

theorem runTask_halt (pm : PatternMatcher) (ls : LoopSt) (t : Listener × Event)
    (h : (ls.panicked || ls.stuck) = true) : runTask pm ls t = ls := by
  unfold runTask
  rw [if_pos h]

theorem foldl_runTask_halt (pm : PatternMatcher) (Ts : List (Listener × Event))
    (ls : LoopSt) (h : (ls.panicked || ls.stuck) = true) :
    Ts.foldl (runTask pm) ls = ls := by
  induction Ts with
  | nil => rfl
  | cons x xs ih => rw [List.foldl_cons, runTask_halt pm ls x h, ih]

theorem finishWaiters_halt (ls : LoopSt) (h : (ls.panicked || ls.stuck) = true) :
    finishWaiters ls = ls := by
  unfold finishWaiters
  rw [if_pos h]

/-- The post-loop phases (deferred `Off`s, spawned tasks, waiters) absorb
a halted state. -/
theorem emit_phases_halt (pm : PatternMatcher) (x : LoopSt)
    (h : (x.panicked || x.stuck) = true) :
    finishWaiters ((x.defers.foldl (runDefer pm) x).tasks.foldl (runTask pm)
      (x.defers.foldl (runDefer pm) x)) = x := by
  rw [foldl_runDefer_halt pm x.defers x h, foldl_runTask_halt pm x.tasks x h,
    finishWaiters_halt x h]

/-! ### Single-topic registry computations -/

theorem lookupL_single (T : String) (l : List Listener) :
    lookupL [(T, l)] T = some l := by
  simp [lookupL, List.find?_cons]

theorem setL_single (T : String) (l v : List Listener) :
    setL [(T, l)] T v = [(T, v)] := by
  simp [setL]

theorem delL_single (T : String) (v : List Listener) :
    delL [(T, v)] T = [] := by
  simp [delL, List.filter_cons, bne]

theorem lview_single (a : Nat) (T : String) (l : List Listener) :
    lview a [(T, l)] = l.filter (fun x => x.ch != a) := by
  simp [lview]

theorem filter_idem (p : α → Bool) (l : List α) :
    (l.filter p).filter p = l.filter p := by
  rw [List.filter_filter]
  refine List.filter_congr ?_
  intro x _
  exact Bool.and_self _

theorem filter_eqb_of_all_a (a b : Nat) (hba : b ≠ a) (l : List Listener)
    (h : l.filter (fun x => x.ch != a) = []) :
    l.filter (fun x => x.ch == b) = [] := by
  rw [List.filter_eq_nil_iff] at h ⊢
  intro x hx
  have hxa : x.ch = a := by
    have := h x hx
    simpa [bne] using this
  simp [hxa, Ne.symm hba]

theorem filter_eqb_through_ne (a b : Nat) (hba : b ≠ a) (l : List Listener) :
    (l.filter (fun x => x.ch != a)).filter (fun x => x.ch == b)
      = l.filter (fun x => x.ch == b) := by
  rw [List.filter_filter]
  refine List.filter_congr ?_
  intro x _
  by_cases hx : x.ch = b
  · simp [hx, bne, hba]
  · simp [show (x.ch == b) = false by simp [hx]]

/-- The result of `matched` over a one-key registry. -/
theorem matchedGo_single (pm : PatternMatcher) (t T : String) :
    matchedGo pm t [T] = .error ()
    ∨ matchedGo pm t [T] = .ok []
    ∨ matchedGo pm t [T] = .ok [T] := by
  rw [matchedGo_cons]
  cases h1 : pm t T with
  | error e => cases e; exact Or.inl rfl
  | ok b =>
    cases b with
    | true => exact Or.inr (Or.inr rfl)
    | false =>
      cases h2 : pm T t with
      | error e => exact Or.inr (Or.inl rfl)
      | ok b2 =>
        cases b2 with
        | true => exact Or.inr (Or.inr rfl)
        | false => exact Or.inr (Or.inl rfl)

/-- `Off` with one handle on a one-key registry, explicitly. -/
theorem offTopic_single_b (b : Nat) (s : Sys) (T : String) (l : List Listener)
    (hs : s.listeners = [(T, l)]) :
    (offTopic [b] s T).listeners
      = (if (l.filter (fun x => x.ch != b)).isEmpty then []
          else [(T, l.filter (fun x => x.ch != b))])
    ∧ (offTopic [b] s T).chans
      = (l.reverse.filter (fun x => x.ch == b)).foldl
          (fun ch x => ch.filter (fun p => p.1 != x.ch)) s.chans := by
  obtain ⟨hc1, _, _⟩ := foldl_closeChan_spec (l.reverse.filter (fun x => x.ch == b)) s
  have hchans := foldl_closeChan_chans (l.reverse.filter (fun x => x.ch == b)) s
  unfold offTopic
  rw [hs, lookupL_single]
  simp only [List.isEmpty_cons, Bool.false_eq_true, if_false, List.foldl_cons,
    List.foldl_nil]
  constructor
  · by_cases hem : (l.filter (fun x => x.ch != b)).isEmpty
    · rw [if_pos hem, if_pos hem]
      dsimp only
      rw [hc1, hs, setL_single, delL_single]
    · rw [if_neg hem, if_neg hem]
      dsimp only
      rw [hc1, hs, setL_single]
  · by_cases hem : (l.filter (fun x => x.ch != b)).isEmpty
    · rw [if_pos hem]
      exact hchans
    · rw [if_neg hem]
      exact hchans

/-- A deferred `Off(t, b)` on a registry whose only entry carries no
listener away from `a`: no visible effect away from `a`. -/
theorem offStep_degenerate (pm : PatternMatcher) (T : String) (a : Nat)
    (t : String) (b : Nat) (hba : b ≠ a) (s : Sys) (l : List Listener)
    (hs : s.listeners = [(T, l)]) (hne : l ≠ [])
    (hla : l.filter (fun x => x.ch != a) = []) :
    SingleKey T
      (match offGo pm s t [b] with | .error _ => s | .ok s' => s').listeners
    ∧ lview a
        (match offGo pm s t [b] with | .error _ => s | .ok s' => s').listeners = []
    ∧ exceptCh a
        (match offGo pm s t [b] with | .error _ => s | .ok s' => s').chans
      = exceptCh a s.chans := by
  have hkeys : s.listeners.map (·.1) = [T] := by rw [hs]; rfl
  have hlv : lview a s.listeners = [] := by
    rw [hs, lview_single, hla]
  have hsk : SingleKey T s.listeners := Or.inr ⟨l, hs, hne⟩
  rcases matchedGo_single pm t T with hm | hm | hm
  · have ho : offGo pm s t [b] = .error () := by
      unfold offGo
      rw [hkeys, hm]
    rw [ho]
    exact ⟨hsk, hlv, rfl⟩
  · have ho : offGo pm s t [b] = .ok s := by
      unfold offGo
      rw [hkeys, hm]
      rfl
    rw [ho]
    exact ⟨hsk, hlv, rfl⟩
  · have ho : offGo pm s t [b] = .ok (offTopic [b] s T) := by
      unfold offGo
      rw [hkeys, hm]
      rfl
    rw [ho]
    obtain ⟨hL, hC⟩ := offTopic_single_b b s T l hs
    have hclsnil : l.reverse.filter (fun x => x.ch == b) = [] := by
      rw [List.filter_reverse, filter_eqb_of_all_a a b hba l hla]
      rfl
    have hfb : (l.filter (fun x => x.ch != b)).filter (fun x => x.ch != a) = [] := by
      rw [filter_filter_comm, hla]
      rfl
    refine ⟨?_, ?_, ?_⟩
    · rw [hL]
      by_cases hem : (l.filter (fun x => x.ch != b)).isEmpty
      · rw [if_pos hem]
        exact Or.inl rfl
      · rw [if_neg hem]
        exact Or.inr ⟨_, rfl, by simpa using hem⟩
    · rw [hL]
      by_cases hem : (l.filter (fun x => x.ch != b)).isEmpty
      · rw [if_pos hem]; rfl
      · rw [if_neg hem, lview_single]
        exact hfb
    · rw [hC, hclsnil]
      rfl

/-- A deferred `Off(t, b)` with `b ≠ a` acts identically, away from `a`,
on two one-key registries agreeing away from `a`. -/
theorem offStep_both (pm : PatternMatcher) (T : String) (a : Nat) (t : String)
    (b : Nat) (hba : b ≠ a) (s₁ s₂ : Sys) (l₁ l₂ : List Listener)
    (hs₁ : s₁.listeners = [(T, l₁)]) (hs₂ : s₂.listeners = [(T, l₂)])
    (hne₁ : l₁ ≠ []) (hne₂ : l₂ ≠ [])
    (hlv : l₁.filter (fun x => x.ch != a) = l₂.filter (fun x => x.ch != a))
    (hch : exceptCh a s₁.chans = exceptCh a s₂.chans) :
    SingleKey T
      (match offGo pm s₁ t [b] with | .error _ => s₁ | .ok s' => s').listeners
    ∧ SingleKey T
        (match offGo pm s₂ t [b] with | .error _ => s₂ | .ok s' => s').listeners
    ∧ lview a
        (match offGo pm s₁ t [b] with | .error _ => s₁ | .ok s' => s').listeners
      = lview a
          (match offGo pm s₂ t [b] with | .error _ => s₂ | .ok s' => s').listeners
    ∧ exceptCh a
        (match offGo pm s₁ t [b] with | .error _ => s₁ | .ok s' => s').chans
      = exceptCh a
          (match offGo pm s₂ t [b] with | .error _ => s₂ | .ok s' => s').chans := by
  have hkeys₁ : s₁.listeners.map (·.1) = [T] := by rw [hs₁]; rfl
  have hkeys₂ : s₂.listeners.map (·.1) = [T] := by rw [hs₂]; rfl
  have hsk₁ : SingleKey T s₁.listeners := Or.inr ⟨l₁, hs₁, hne₁⟩
  have hsk₂ : SingleKey T s₂.listeners := Or.inr ⟨l₂, hs₂, hne₂⟩
  have hlview : lview a s₁.listeners = lview a s₂.listeners := by
    rw [hs₁, hs₂, lview_single, lview_single, hlv]
  rcases matchedGo_single pm t T with hm | hm | hm
  · have ho₁ : offGo pm s₁ t [b] = .error () := by
      unfold offGo; rw [hkeys₁, hm]
    have ho₂ : offGo pm s₂ t [b] = .error () := by
      unfold offGo; rw [hkeys₂, hm]
    rw [ho₁, ho₂]
    exact ⟨hsk₁, hsk₂, hlview, hch⟩
  · have ho₁ : offGo pm s₁ t [b] = .ok s₁ := by
      unfold offGo; rw [hkeys₁, hm]; rfl
    have ho₂ : offGo pm s₂ t [b] = .ok s₂ := by
      unfold offGo; rw [hkeys₂, hm]; rfl
    rw [ho₁, ho₂]
    exact ⟨hsk₁, hsk₂, hlview, hch⟩
  · have ho₁ : offGo pm s₁ t [b] = .ok (offTopic [b] s₁ T) := by
      unfold offGo; rw [hkeys₁, hm]; rfl
    have ho₂ : offGo pm s₂ t [b] = .ok (offTopic [b] s₂ T) := by
      unfold offGo; rw [hkeys₂, hm]; rfl
    rw [ho₁, ho₂]
    obtain ⟨hL₁, hC₁⟩ := offTopic_single_b b s₁ T l₁ hs₁
    obtain ⟨hL₂, hC₂⟩ := offTopic_single_b b s₂ T l₂ hs₂
    have hcls : l₁.reverse.filter (fun x => x.ch == b)
        = l₂.reverse.filter (fun x => x.ch == b) := by
      rw [List.filter_reverse, List.filter_reverse,
        ← filter_eqb_through_ne a b hba l₁, ← filter_eqb_through_ne a b hba l₂, hlv]
    have hkeep : (l₁.filter (fun x => x.ch != b)).filter (fun x => x.ch != a)
        = (l₂.filter (fun x => x.ch != b)).filter (fun x => x.ch != a) := by
      rw [filter_filter_comm, hlv, ← filter_filter_comm]
    refine ⟨?_, ?_, ?_, ?_⟩
    · rw [hL₁]
      by_cases hem : (l₁.filter (fun x => x.ch != b)).isEmpty
      · rw [if_pos hem]; exact Or.inl rfl
      · rw [if_neg hem]; exact Or.inr ⟨_, rfl, by simpa using hem⟩
    · rw [hL₂]
      by_cases hem : (l₂.filter (fun x => x.ch != b)).isEmpty
      · rw [if_pos hem]; exact Or.inl rfl
      · rw [if_neg hem]; exact Or.inr ⟨_, rfl, by simpa using hem⟩
    · rw [hL₁, hL₂]
      by_cases hem₁ : (l₁.filter (fun x => x.ch != b)).isEmpty
      · rw [if_pos hem₁]
        have h1 : (l₁.filter (fun x => x.ch != b)).filter (fun x => x.ch != a)
            = [] := by
          rw [List.isEmpty_iff.mp hem₁]; rfl
        by_cases hem₂ : (l₂.filter (fun x => x.ch != b)).isEmpty
        · rw [if_pos hem₂]
        · rw [if_neg hem₂, lview_single]
          rw [← hkeep, h1]
          rfl
      · rw [if_neg hem₁]
        by_cases hem₂ : (l₂.filter (fun x => x.ch != b)).isEmpty
        · rw [if_pos hem₂, lview_single]
          have h2 : (l₂.filter (fun x => x.ch != b)).filter (fun x => x.ch != a)
              = [] := by
            rw [List.isEmpty_iff.mp hem₂]; rfl
          rw [hkeep, h2]
          rfl
        · rw [if_neg hem₂, lview_single, lview_single]
          exact hkeep
    · rw [hC₁, hC₂, hcls]
      exact foldl_chanFilter_iso _ a _ _ hch

/-- A deferred `Off(t, a)` (the modified listener's own removal) has no
visible effect away from `a`. -/
theorem offStep_aFrame (pm : PatternMatcher) (T : String) (a : Nat) (t : String)
    (s : Sys) (hsk : SingleKey T s.listeners) :
    SingleKey T
      (match offGo pm s t [a] with | .error _ => s | .ok s' => s').listeners
    ∧ lview a
        (match offGo pm s t [a] with | .error _ => s | .ok s' => s').listeners
      = lview a s.listeners
    ∧ exceptCh a
        (match offGo pm s t [a] with | .error _ => s | .ok s' => s').chans
      = exceptCh a s.chans := by
  rcases hsk with hs | ⟨l, hs, hne⟩
  · have ho : offGo pm s t [a] = .ok s := by
      unfold offGo
      rw [show s.listeners.map (·.1) = [] by rw [hs]; rfl]
      rfl
    rw [ho]
    exact ⟨Or.inl hs, rfl, rfl⟩
  · have hkeys : s.listeners.map (·.1) = [T] := by rw [hs]; rfl
    have hsk' : SingleKey T s.listeners := Or.inr ⟨l, hs, hne⟩
    rcases matchedGo_single pm t T with hm | hm | hm
    · have ho : offGo pm s t [a] = .error () := by
        unfold offGo; rw [hkeys, hm]
      rw [ho]
      exact ⟨hsk', rfl, rfl⟩
    · have ho : offGo pm s t [a] = .ok s := by
        unfold offGo; rw [hkeys, hm]; rfl
      rw [ho]
      exact ⟨hsk', rfl, rfl⟩
    · have ho : offGo pm s t [a] = .ok (offTopic [a] s T) := by
        unfold offGo; rw [hkeys, hm]; rfl
      rw [ho]
      obtain ⟨hL, hC⟩ := offTopic_single_b a s T l hs
      have hid : (l.filter (fun x => x.ch != a)).filter (fun x => x.ch != a)
          = l.filter (fun x => x.ch != a) := filter_idem _ l
      refine ⟨?_, ?_, ?_⟩
      · rw [hL]
        by_cases hem : (l.filter (fun x => x.ch != a)).isEmpty
        · rw [if_pos hem]; exact Or.inl rfl
        · rw [if_neg hem]; exact Or.inr ⟨_, rfl, by simpa using hem⟩
      · rw [hL, hs]
        by_cases hem : (l.filter (fun x => x.ch != a)).isEmpty
        · rw [if_pos hem, lview_single]
          rw [List.isEmpty_iff.mp hem]
          rfl
        · rw [if_neg hem, lview_single, lview_single]
          exact hid
      · rw [hC]
        have hall : ∀ x ∈ l.reverse.filter (fun x => x.ch == a), x.ch = a := by
          intro x hx
          have := List.of_mem_filter hx
          simpa using this
        exact foldl_chanFilter_a _ a hall s.chans

/-- A deferred `Off` with a handle other than `a`, on any two related
single-topic registries. -/
theorem offStep_combined (pm : PatternMatcher) (T : String) (a : Nat)
    (t : String) (b : Nat) (hba : b ≠ a) (s₁ s₂ : Sys)
    (hsk₁ : SingleKey T s₁.listeners) (hsk₂ : SingleKey T s₂.listeners)
    (hreg : lview a s₁.listeners = lview a s₂.listeners)
    (hch : exceptCh a s₁.chans = exceptCh a s₂.chans) :
    SingleKey T
      (match offGo pm s₁ t [b] with | .error _ => s₁ | .ok s' => s').listeners
    ∧ SingleKey T
        (match offGo pm s₂ t [b] with | .error _ => s₂ | .ok s' => s').listeners
    ∧ lview a
        (match offGo pm s₁ t [b] with | .error _ => s₁ | .ok s' => s').listeners
      = lview a
          (match offGo pm s₂ t [b] with | .error _ => s₂ | .ok s' => s').listeners
    ∧ exceptCh a
        (match offGo pm s₁ t [b] with | .error _ => s₁ | .ok s' => s').chans
      = exceptCh a
          (match offGo pm s₂ t [b] with | .error _ => s₂ | .ok s' => s').chans := by
  rcases hsk₁ with h1 | ⟨l₁, h1, hne₁⟩
  · have ho₁ : offGo pm s₁ t [b] = .ok s₁ := by
      unfold offGo
      rw [show s₁.listeners.map (·.1) = [] by rw [h1]; rfl]
      rfl
    rcases hsk₂ with h2 | ⟨l₂, h2, hne₂⟩
    · have ho₂ : offGo pm s₂ t [b] = .ok s₂ := by
        unfold offGo
        rw [show s₂.listeners.map (·.1) = [] by rw [h2]; rfl]
        rfl
      rw [ho₁, ho₂]
      exact ⟨Or.inl h1, Or.inl h2, hreg, hch⟩
    · have hla₂ : l₂.filter (fun x => x.ch != a) = [] := by
        have := hreg.symm
        rw [h2, lview_single, h1] at this
        simpa [lview] using this
      obtain ⟨hK, hV, hC⟩ := offStep_degenerate pm T a t b hba s₂ l₂ h2 hne₂ hla₂
      rw [ho₁]
      refine ⟨Or.inl h1, hK, ?_, ?_⟩
      · rw [hV, h1]
        rfl
      · rw [hC]
        exact hch
  · rcases hsk₂ with h2 | ⟨l₂, h2, hne₂⟩
    · have ho₂ : offGo pm s₂ t [b] = .ok s₂ := by
        unfold offGo
        rw [show s₂.listeners.map (·.1) = [] by rw [h2]; rfl]
        rfl
      have hla₁ : l₁.filter (fun x => x.ch != a) = [] := by
        have := hreg
        rw [h1, lview_single, h2] at this
        simpa [lview] using this
      obtain ⟨hK, hV, hC⟩ := offStep_degenerate pm T a t b hba s₁ l₁ h1 hne₁ hla₁
      rw [ho₂]
      refine ⟨hK, Or.inl h2, ?_, ?_⟩
      · rw [hV, h2]
        rfl
      · rw [hC]
        exact hch
    · have hlv : l₁.filter (fun x => x.ch != a) = l₂.filter (fun x => x.ch != a) := by
        have := hreg
        rw [h1, h2, lview_single, lview_single] at this
        exact this
      exact offStep_both pm T a t b hba s₁ s₂ l₁ l₂ h1 h2 hne₁ hne₂ hlv hch

/-- `runDefer` leaves every component but the bus state unchanged. -/
theorem runDefer_fields (pm : PatternMatcher) (ls : LoopSt) (d : String × Nat) :
    (runDefer pm ls d).sends = ls.sends ∧ (runDefer pm ls d).defers = ls.defers
    ∧ (runDefer pm ls d).tasks = ls.tasks ∧ (runDefer pm ls d).done = ls.done
    ∧ (runDefer pm ls d).stuck = ls.stuck
    ∧ (runDefer pm ls d).panicked = ls.panicked
    ∧ (runDefer pm ls d).haveToWait = ls.haveToWait
    ∧ (runDefer pm ls d).waiters = ls.waiters := by
  unfold runDefer
  repeat' split
  all_goals exact ⟨rfl, rfl, rfl, rfl, rfl, rfl, rfl, rfl⟩

theorem foldl_runDefer_fields (pm : PatternMatcher) (D : List (String × Nat)) :
    ∀ ls : LoopSt,
      (D.foldl (runDefer pm) ls).sends = ls.sends
      ∧ (D.foldl (runDefer pm) ls).tasks = ls.tasks
      ∧ (D.foldl (runDefer pm) ls).done = ls.done
      ∧ (D.foldl (runDefer pm) ls).stuck = ls.stuck
      ∧ (D.foldl (runDefer pm) ls).panicked = ls.panicked := by
  induction D with
  | nil => intro ls; exact ⟨rfl, rfl, rfl, rfl, rfl⟩
  | cons x xs ih =>
    intro ls
    rw [List.foldl_cons]
    obtain ⟨i1, i2, i3, i4, i5⟩ := ih (runDefer pm ls x)
    obtain ⟨f1, _, f3, f4, f5, f6, _, _⟩ := runDefer_fields pm ls x
    exact ⟨i1.trans f1, i2.trans f3, i3.trans f4, i4.trans f5, i5.trans f6⟩

/-- The bus-state view of `runDefer` on a non-halted state. -/
theorem runDefer_s_eq (pm : PatternMatcher) (ls : LoopSt) (d : String × Nat)
    (hh : (ls.panicked || ls.stuck) = false) :
    (runDefer pm ls d).s
      = (match offGo pm ls.s d.1 [d.2] with | .error _ => ls.s | .ok s' => s') := by
  unfold runDefer
  rw [if_neg (by rw [hh]; exact Bool.false_ne_true)]
  cases offGo pm ls.s d.1 [d.2] <;> rfl

/-- A run of `a`-handle defers: no visible effect away from `a`. -/
theorem deferPhase_aOnly (pm : PatternMatcher) (T : String) (a : Nat) :
    ∀ (d : List (String × Nat)) (y : LoopSt), (∀ p ∈ d, p.2 = a) →
      SingleKey T y.s.listeners →
      SingleKey T (d.foldl (runDefer pm) y).s.listeners
      ∧ lview a (d.foldl (runDefer pm) y).s.listeners = lview a y.s.listeners
      ∧ exceptCh a (d.foldl (runDefer pm) y).s.chans = exceptCh a y.s.chans := by
  intro d
  induction d with
  | nil => intro y _ hsk; exact ⟨hsk, rfl, rfl⟩
  | cons p ps ih =>
    intro y hall hsk
    rw [List.foldl_cons]
    by_cases hh : (y.panicked || y.stuck) = true
    · rw [runDefer_halt pm y p hh]
      exact ih y (fun q hq => hall q (List.mem_cons_of_mem _ hq)) hsk
    · have hpa : p.2 = a := hall p (List.mem_cons_self _ _)
      have hs := runDefer_s_eq pm y p (by simpa using hh)
      rw [hpa] at hs
      obtain ⟨hK, hV, hC⟩ := offStep_aFrame pm T a p.1 y.s hsk
      have hstep : SingleKey T (runDefer pm y p).s.listeners
          ∧ lview a (runDefer pm y p).s.listeners = lview a y.s.listeners
          ∧ exceptCh a (runDefer pm y p).s.chans = exceptCh a y.s.chans := by
        rw [hs]
        exact ⟨hK, hV, hC⟩
      obtain ⟨k1, k2, k3⟩ :=
        ih (runDefer pm y p) (fun q hq => hall q (List.mem_cons_of_mem _ hq)) hstep.1
      exact ⟨k1, k2.trans hstep.2.1, k3.trans hstep.2.2⟩

/-- Splitting a list at the first element its filter keeps. -/
theorem filter_eq_cons_split (p : α → Bool) :
    ∀ (l : List α) (x : α) (r : List α), l.filter p = x :: r →
      ∃ pre suf, l = pre ++ x :: suf ∧ (∀ z ∈ pre, p z = false)
        ∧ p x = true ∧ suf.filter p = r := by
  intro l
  induction l with
  | nil => intro x r h; exact absurd h (by simp)
  | cons z l ih =>
    intro x r h
    cases hz : p z with
    | true =>
      rw [List.filter_cons, hz, if_pos rfl] at h
      injection h with h1 h2
      subst h1
      exact ⟨[], l, rfl, by simp, hz, h2⟩
    | false =>
      rw [List.filter_cons, hz] at h
      simp only [Bool.false_eq_true, if_false] at h
      obtain ⟨pre, suf, hsplit, hpre, hx, hsuf⟩ := ih x r h
      refine ⟨z :: pre, suf, by rw [hsplit]; rfl, ?_, hx, hsuf⟩
      intro w hw
      rcases List.mem_cons.mp hw with rfl | hw
      · exact hz
      · exact hpre w hw

/-- The deferred-`Off` phases of two runs whose pending removals agree
away from `a` have the same visible effect away from `a`. -/
theorem deferPhase_iso (pm : PatternMatcher) (T : String) (a : Nat) :
    ∀ (d₁ d₂ : List (String × Nat)) (x y : LoopSt),
      (x.panicked || x.stuck) = false → (y.panicked || y.stuck) = false →
      exceptDefers a d₁ = exceptDefers a d₂ →
      SingleKey T x.s.listeners → SingleKey T y.s.listeners →
      lview a x.s.listeners = lview a y.s.listeners →
      exceptCh a x.s.chans = exceptCh a y.s.chans →
      SingleKey T (d₁.foldl (runDefer pm) x).s.listeners
      ∧ SingleKey T (d₂.foldl (runDefer pm) y).s.listeners
      ∧ lview a (d₁.foldl (runDefer pm) x).s.listeners
        = lview a (d₂.foldl (runDefer pm) y).s.listeners
      ∧ exceptCh a (d₁.foldl (runDefer pm) x).s.chans
        = exceptCh a (d₂.foldl (runDefer pm) y).s.chans := by
  intro d₁
  induction d₁ with
  | nil =>
    intro d₂ x y hhx hhy hd hsk₁ hsk₂ hreg hch
    have hall : ∀ p ∈ d₂, p.2 = a := by
      intro p hp
      by_contra hpa
      have hmem : p ∈ d₂.filter (fun q => q.2 != a) :=
        List.mem_filter.mpr ⟨hp, by simp [bne, hpa]⟩
      rw [show d₂.filter (fun q => q.2 != a) = exceptDefers a d₂ from rfl,
        ← hd] at hmem
      simp [exceptDefers] at hmem
    obtain ⟨k1, k2, k3⟩ := deferPhase_aOnly pm T a d₂ y hall hsk₂
    exact ⟨hsk₁, k1, hreg.trans k2.symm, hch.trans k3.symm⟩
  | cons p d₁' ih =>
    intro d₂ x y hhx hhy hd hsk₁ hsk₂ hreg hch
    obtain ⟨f1, _, _, f4, f5⟩ := foldl_runDefer_fields pm [p] x
    obtain ⟨r1, _, _, r4, r5, r6, _, _⟩ := runDefer_fields pm x p
    have hhx' : ((runDefer pm x p).panicked || (runDefer pm x p).stuck) = false := by
      rw [r5, r6]
      exact hhx
    by_cases hpa : p.2 = a
    · rw [List.foldl_cons]
      have hs := runDefer_s_eq pm x p (by simpa using hhx)
      rw [hpa] at hs
      obtain ⟨hK, hV, hC⟩ := offStep_aFrame pm T a p.1 x.s hsk₁
      have hK' : SingleKey T (runDefer pm x p).s.listeners := by rw [hs]; exact hK
      have hV' : lview a (runDefer pm x p).s.listeners = lview a x.s.listeners := by
        rw [hs]; exact hV
      have hC' : exceptCh a (runDefer pm x p).s.chans = exceptCh a x.s.chans := by
        rw [hs]; exact hC
      have hd' : exceptDefers a d₁' = exceptDefers a d₂ := by
        rw [← hd]
        unfold exceptDefers
        rw [List.filter_cons]
        simp [bne, hpa]
      exact ih d₂ (runDefer pm x p) y hhx' hhy hd' hK' hsk₂
        (hV'.trans hreg) (hC'.trans hch)
    · have hd0 : exceptDefers a (p :: d₁') = p :: exceptDefers a d₁' := by
        unfold exceptDefers
        rw [List.filter_cons]
        simp [bne, hpa]
      rw [hd0] at hd
      obtain ⟨pre, suf, hd₂, hpre, _, hsuf⟩ :=
        filter_eq_cons_split _ d₂ p (exceptDefers a d₁') hd.symm
      have hallpre : ∀ q ∈ pre, q.2 = a := by
        intro q hq
        have := hpre q hq
        simpa [bne] using this
      obtain ⟨m1, m2, m3⟩ := deferPhase_aOnly pm T a pre y hallpre hsk₂
      obtain ⟨_, _, _, p4, p5⟩ := foldl_runDefer_fields pm pre y
      have hhy' : ((pre.foldl (runDefer pm) y).panicked
          || (pre.foldl (runDefer pm) y).stuck) = false := by
        rw [p4, p5]
        exact hhy
      have hsx := runDefer_s_eq pm x p (by simpa using hhx)
      have hsy := runDefer_s_eq pm (pre.foldl (runDefer pm) y) p
        (by simpa using hhy')
      obtain ⟨c1, c2, c3, c4⟩ := offStep_combined pm T a p.1 p.2 hpa
        x.s (pre.foldl (runDefer pm) y).s hsk₁ m1
        (hreg.trans m2.symm) (hch.trans m3.symm)
      obtain ⟨q1, _, _, q4, q5, q6, _, _⟩ :=
        runDefer_fields pm (pre.foldl (runDefer pm) y) p
      have hhy'' : ((runDefer pm (pre.foldl (runDefer pm) y) p).panicked
          || (runDefer pm (pre.foldl (runDefer pm) y) p).stuck) = false := by
        rw [q5, q6]
        exact hhy'
      rw [hd₂, List.foldl_append, List.foldl_cons, List.foldl_cons]
      refine ih suf (runDefer pm x p) (runDefer pm (pre.foldl (runDefer pm) y) p)
        hhx' hhy'' hsuf.symm ?_ ?_ ?_ ?_
      · rw [hsx]; exact c1
      · rw [hsy]; exact c2
      · rw [hsx, hsy]; exact c3
      · rw [hsx, hsy]; exact c4

theorem runTask_fields (pm : PatternMatcher) (ls : LoopSt) (t : Listener × Event) :
    (runTask pm ls t).defers = ls.defers ∧ (runTask pm ls t).done = ls.done
    ∧ (runTask pm ls t).tasks = ls.tasks := by
  unfold runTask
  dsimp only
  repeat' split
  all_goals exact ⟨rfl, rfl, rfl⟩

/-- An async delivery task owned by channel `a` has no visible effect
away from `a`. -/
theorem runTask_aFrame (pm : PatternMatcher) (T : String) (a : Nat)
    (tk : Listener × Event) (hta : tk.1.ch = a) (x : LoopSt)
    (hsk : SingleKey T x.s.listeners) :
    SingleKey T (runTask pm x tk).s.listeners
    ∧ lview a (runTask pm x tk).s.listeners = lview a x.s.listeners
    ∧ exceptCh a (runTask pm x tk).s.chans = exceptCh a x.s.chans
    ∧ exceptSends a (runTask pm x tk).sends = exceptSends a x.sends := by
  subst hta
  unfold runTask
  split
  · exact ⟨hsk, rfl, rfl, rfl⟩
  · cases hc : lookupCh x.s.chans tk.1.ch with
    | none => exact ⟨hsk, rfl, rfl, rfl⟩
    | some c =>
      dsimp only
      cases hp : pushEventGo x.done c tk.2 false with
      | none => exact ⟨hsk, rfl, rfl, rfl⟩
      | some v =>
        obtain ⟨succ, rem, c'⟩ := v
        dsimp only
        have hchm : exceptCh tk.1.ch (setCh x.s.chans tk.1.ch c')
            = exceptCh tk.1.ch x.s.chans :=
          exceptCh_setCh_self tk.1.ch c' x.s.chans
        have hsnd : exceptSends tk.1.ch
            (x.sends ++ if succ = true then [(tk.1.ch, tk.2)] else [])
            = exceptSends tk.1.ch x.sends := by
          unfold exceptSends
          rw [List.filter_append]
          cases succ
          · simp
          · simp [bne]
        cases rem with
        | false =>
          rw [if_neg Bool.false_ne_true]
          exact ⟨hsk, rfl, hchm, hsnd⟩
        | true =>
          rw [if_pos rfl]
          obtain ⟨k1, k2, k3⟩ := offStep_aFrame pm T tk.1.ch tk.2.Topic
            ({ x.s with chans := setCh x.s.chans tk.1.ch c' } : Sys) hsk
          cases ho : offGo pm
              ({ x.s with chans := setCh x.s.chans tk.1.ch c' } : Sys)
              tk.2.Topic [tk.1.ch] with
          | error e =>
            rw [ho] at k1 k2 k3
            exact ⟨k1, k2, k3.trans hchm, hsnd⟩
          | ok s' =>
            rw [ho] at k1 k2 k3
            exact ⟨k1, k2, k3.trans hchm, hsnd⟩

/-- A run of `a`-owned tasks: no visible effect away from `a`. -/
theorem taskPhase_aOnly (pm : PatternMatcher) (T : String) (a : Nat) :
    ∀ (d : List (Listener × Event)) (y : LoopSt), (∀ p ∈ d, p.1.ch = a) →
      SingleKey T y.s.listeners →
      SingleKey T (d.foldl (runTask pm) y).s.listeners
      ∧ lview a (d.foldl (runTask pm) y).s.listeners = lview a y.s.listeners
      ∧ exceptCh a (d.foldl (runTask pm) y).s.chans = exceptCh a y.s.chans
      ∧ exceptSends a (d.foldl (runTask pm) y).sends = exceptSends a y.sends := by
  intro d
  induction d with
  | nil => intro y _ hsk; exact ⟨hsk, rfl, rfl, rfl⟩
  | cons p ps ih =>
    intro y hall hsk
    rw [List.foldl_cons]
    obtain ⟨k1, k2, k3, k4⟩ :=
      runTask_aFrame pm T a p (hall p (List.mem_cons_self _ _)) y hsk
    obtain ⟨m1, m2, m3, m4⟩ :=
      ih (runTask pm y p) (fun q hq => hall q (List.mem_cons_of_mem _ hq)) k1
    exact ⟨m1, m2.trans k2, m3.trans k3, m4.trans k4⟩

/-- The same async delivery task, not owned by `a`, acts identically on
two related states. -/
theorem runTask_iso_ne (pm : PatternMatcher) (T : String) (a : Nat)
    (tk : Listener × Event) (hba : tk.1.ch ≠ a) (x y : LoopSt)
    (hhx : (x.panicked || x.stuck) = false) (hhy : (y.panicked || y.stuck) = false)
    (hsk₁ : SingleKey T x.s.listeners) (hsk₂ : SingleKey T y.s.listeners)
    (hreg : lview a x.s.listeners = lview a y.s.listeners)
    (hch : exceptCh a x.s.chans = exceptCh a y.s.chans)
    (hsends : exceptSends a x.sends = exceptSends a y.sends)
    (hdone : x.done = y.done) :
    SingleKey T (runTask pm x tk).s.listeners
    ∧ SingleKey T (runTask pm y tk).s.listeners
    ∧ lview a (runTask pm x tk).s.listeners = lview a (runTask pm y tk).s.listeners
    ∧ exceptCh a (runTask pm x tk).s.chans = exceptCh a (runTask pm y tk).s.chans
    ∧ exceptSends a (runTask pm x tk).sends = exceptSends a (runTask pm y tk).sends
    ∧ (runTask pm x tk).stuck = (runTask pm y tk).stuck
    ∧ (runTask pm x tk).panicked = (runTask pm y tk).panicked
    ∧ (runTask pm x tk).done = x.done := by
  have hxs : x.stuck = y.stuck := by
    rcases Bool.or_eq_false_iff.mp hhx with ⟨_, h1⟩
    rcases Bool.or_eq_false_iff.mp hhy with ⟨_, h2⟩
    rw [h1, h2]
  have hxp : x.panicked = y.panicked := by
    rcases Bool.or_eq_false_iff.mp hhx with ⟨h1, _⟩
    rcases Bool.or_eq_false_iff.mp hhy with ⟨h2, _⟩
    rw [h1, h2]
  have hlk : lookupCh x.s.chans tk.1.ch = lookupCh y.s.chans tk.1.ch := by
    rw [← lookupCh_exceptCh a tk.1.ch hba x.s.chans, hch,
      lookupCh_exceptCh a tk.1.ch hba]
  unfold runTask
  rw [if_neg (by rw [hhx]; exact Bool.false_ne_true),
    if_neg (by rw [hhy]; exact Bool.false_ne_true), hlk, hdone]
  cases hc : lookupCh y.s.chans tk.1.ch with
  | none =>
    exact ⟨hsk₁, hsk₂, hreg, hch, hsends, hxs, rfl, rfl⟩
  | some c =>
    dsimp only
    cases hp : pushEventGo y.done c tk.2 false with
    | none =>
      exact ⟨hsk₁, hsk₂, hreg, hch, hsends, rfl, hxp, rfl⟩
    | some v =>
      obtain ⟨succ, rem, c'⟩ := v
      dsimp only
      have hch' : exceptCh a (setCh x.s.chans tk.1.ch c')
          = exceptCh a (setCh y.s.chans tk.1.ch c') := by
        rw [exceptCh_setCh_ne, exceptCh_setCh_ne, hch]
      have hsends' : exceptSends a
            (x.sends ++ if succ = true then [(tk.1.ch, tk.2)] else [])
          = exceptSends a
            (y.sends ++ if succ = true then [(tk.1.ch, tk.2)] else []) := by
        unfold exceptSends at hsends ⊢
        rw [List.filter_append, List.filter_append, hsends]
      cases rem with
      | false =>
        rw [if_neg Bool.false_ne_true]
        exact ⟨hsk₁, hsk₂, hreg, hch', hsends', hxs, hxp, rfl⟩
      | true =>
        rw [if_pos rfl]
        obtain ⟨c1, c2, c3, c4⟩ := offStep_combined pm T a tk.2.Topic tk.1.ch hba
          ({ x.s with chans := setCh x.s.chans tk.1.ch c' } : Sys)
          ({ y.s with chans := setCh y.s.chans tk.1.ch c' } : Sys)
          hsk₁ hsk₂ hreg hch'
        cases ho₁ : offGo pm
            ({ x.s with chans := setCh x.s.chans tk.1.ch c' } : Sys)
            tk.2.Topic [tk.1.ch] with
        | error e =>
          cases ho₂ : offGo pm
              ({ y.s with chans := setCh y.s.chans tk.1.ch c' } : Sys)
              tk.2.Topic [tk.1.ch] with
          | error e2 =>
            simp only [ho₁, ho₂] at c1 c2 c3 c4
            exact ⟨c1, c2, c3, c4, hsends', hxs, hxp, rfl⟩
          | ok s2 =>
            simp only [ho₁, ho₂] at c1 c2 c3 c4
            exact ⟨c1, c2, c3, c4, hsends', hxs, hxp, rfl⟩
        | ok s1 =>
          cases ho₂ : offGo pm
              ({ y.s with chans := setCh y.s.chans tk.1.ch c' } : Sys)
              tk.2.Topic [tk.1.ch] with
          | error e2 =>
            simp only [ho₁, ho₂] at c1 c2 c3 c4
            exact ⟨c1, c2, c3, c4, hsends', hxs, hxp, rfl⟩
          | ok s2 =>
            simp only [ho₁, ho₂] at c1 c2 c3 c4
            exact ⟨c1, c2, c3, c4, hsends', hxs, hxp, rfl⟩

/-- If a fold of async tasks ends neither panicked nor stuck, it also
started that way. -/
theorem taskFold_nohalt (pm : PatternMatcher) (Ts : List (Listener × Event))
    (ls : LoopSt)
    (h : ((Ts.foldl (runTask pm) ls).panicked
      || (Ts.foldl (runTask pm) ls).stuck) = false) :
    (ls.panicked || ls.stuck) = false := by
  cases hb : (ls.panicked || ls.stuck) with
  | false => rfl
  | true =>
    rw [foldl_runTask_halt pm Ts ls hb] at h
    exact hb.symm.trans h

/-- The async-task phases of two runs whose task queues agree away from
`a` have the same visible effect away from `a`, provided neither run
ends panicked or stuck. -/
theorem taskPhase_iso (pm : PatternMatcher) (T : String) (a : Nat) :
    ∀ (t₁ t₂ : List (Listener × Event)) (x y : LoopSt),
      ((t₁.foldl (runTask pm) x).panicked
        || (t₁.foldl (runTask pm) x).stuck) = false →
      ((t₂.foldl (runTask pm) y).panicked
        || (t₂.foldl (runTask pm) y).stuck) = false →
      exceptTasks a t₁ = exceptTasks a t₂ →
      (exceptTasks a t₁ ≠ [] → x.done = y.done) →
      SingleKey T x.s.listeners → SingleKey T y.s.listeners →
      lview a x.s.listeners = lview a y.s.listeners →
      exceptCh a x.s.chans = exceptCh a y.s.chans →
      exceptSends a x.sends = exceptSends a y.sends →
      SingleKey T (t₁.foldl (runTask pm) x).s.listeners
      ∧ SingleKey T (t₂.foldl (runTask pm) y).s.listeners
      ∧ lview a (t₁.foldl (runTask pm) x).s.listeners
        = lview a (t₂.foldl (runTask pm) y).s.listeners
      ∧ exceptCh a (t₁.foldl (runTask pm) x).s.chans
        = exceptCh a (t₂.foldl (runTask pm) y).s.chans
      ∧ exceptSends a (t₁.foldl (runTask pm) x).sends
        = exceptSends a (t₂.foldl (runTask pm) y).sends := by
  intro t₁
  induction t₁ with
  | nil =>
    intro t₂ x y hfx hfy hd hdone hsk₁ hsk₂ hreg hch hsends
    have hall : ∀ p ∈ t₂, p.1.ch = a := by
      intro p hp
      by_contra hpa
      have hmem : p ∈ t₂.filter (fun q => q.1.ch != a) :=
        List.mem_filter.mpr ⟨hp, by simp [bne, hpa]⟩
      rw [show t₂.filter (fun q => q.1.ch != a) = exceptTasks a t₂ from rfl,
        ← hd] at hmem
      simp [exceptTasks] at hmem
    obtain ⟨k1, k2, k3, k4⟩ := taskPhase_aOnly pm T a t₂ y hall hsk₂
    exact ⟨hsk₁, k1, hreg.trans k2.symm, hch.trans k3.symm, hsends.trans k4.symm⟩
  | cons p t₁' ih =>
    intro t₂ x y hfx hfy hd hdone hsk₁ hsk₂ hreg hch hsends
    by_cases hpa : p.1.ch = a
    · rw [List.foldl_cons]
      rw [List.foldl_cons] at hfx
      obtain ⟨k1, k2, k3, k4⟩ := runTask_aFrame pm T a p hpa x hsk₁
      have hd' : exceptTasks a t₁' = exceptTasks a t₂ := by
        rw [← hd]
        unfold exceptTasks
        rw [List.filter_cons]
        simp [bne, hpa]
      have hdone' : exceptTasks a t₁' ≠ [] → (runTask pm x p).done = y.done := by
        intro hne
        rw [runTask_done]
        refine hdone ?_
        rw [show exceptTasks a (p :: t₁') = exceptTasks a t₁' by
          unfold exceptTasks; rw [List.filter_cons]; simp [bne, hpa]]
        exact hne
      exact ih t₂ (runTask pm x p) y hfx hfy hd' hdone' k1 hsk₂
        (k2.trans hreg) (k3.trans hch) (k4.trans hsends)
    · have hd0 : exceptTasks a (p :: t₁') = p :: exceptTasks a t₁' := by
        unfold exceptTasks
        rw [List.filter_cons]
        simp [bne, hpa]
      have hdxy : x.done = y.done := hdone (by rw [hd0]; simp)
      rw [hd0] at hd
      obtain ⟨pre, suf, hd₂, hpre, _, hsuf⟩ :=
        filter_eq_cons_split _ t₂ p (exceptTasks a t₁') hd.symm
      have hallpre : ∀ q ∈ pre, q.1.ch = a := by
        intro q hq
        have := hpre q hq
        simpa [bne] using this
      obtain ⟨m1, m2, m3, m4⟩ := taskPhase_aOnly pm T a pre y hallpre hsk₂
      rw [hd₂] at hfy
      rw [List.foldl_append, List.foldl_cons] at hfy
      rw [List.foldl_cons] at hfx
      have hx0 : (x.panicked || x.stuck) = false :=
        taskFold_nohalt pm (p :: t₁') x (by rw [List.foldl_cons]; exact hfx)
      have hy0 : ((pre.foldl (runTask pm) y).panicked
          || (pre.foldl (runTask pm) y).stuck) = false :=
        taskFold_nohalt pm (p :: suf) (pre.foldl (runTask pm) y)
          (by rw [List.foldl_cons]; exact hfy)
      have hdy : (pre.foldl (runTask pm) y).done = y.done :=
        foldl_runTask_done pm pre y
      obtain ⟨c1, c2, c3, c4, c5, _, _, c8⟩ := runTask_iso_ne pm T a p hpa
        x (pre.foldl (runTask pm) y) hx0 hy0 hsk₁ m1
        (hreg.trans m2.symm) (hch.trans m3.symm) (hsends.trans m4.symm)
        (hdxy.trans hdy.symm)
      have hdone'' : exceptTasks a t₁' ≠ []
          → (runTask pm x p).done = (runTask pm (pre.foldl (runTask pm) y) p).done := by
        intro _
        rw [runTask_done, runTask_done, hdy]
        exact hdxy
      rw [hd₂, List.foldl_append, List.foldl_cons]
      exact ih suf (runTask pm x p) (runTask pm (pre.foldl (runTask pm) y) p)
        hfx hfy hsuf.symm hdone'' c1 c2 c3 c4 c5

/-- A `Void`-flagged per-listener delivery is skipped. -/
theorem deliverOne_void (event : Event) (l : Listener) (ls : LoopSt)
    (hh : (ls.panicked || ls.stuck) = false)
    (hv : hasFlag (applyMiddlewares event l.middlewares).Flags FlagVoid = true) :
    deliverOne event ls l = ls := by
  unfold deliverOne
  rw [if_neg (by rw [hh]; exact Bool.false_ne_true)]
  dsimp only
  rw [if_pos hv]

/-- A non-`Void`, non-`Sync` delivery only spawns an async task. -/
theorem deliverOne_async (event : Event) (l : Listener) (ls : LoopSt)
    (hh : (ls.panicked || ls.stuck) = false)
    (hv : hasFlag (applyMiddlewares event l.middlewares).Flags FlagVoid = false)
    (hs : hasFlag (applyMiddlewares event l.middlewares).Flags FlagSync = false) :
    deliverOne event ls l
      = { ls with haveToWait := true,
                  tasks := ls.tasks ++ [(l, applyMiddlewares event l.middlewares)] } := by
  unfold deliverOne
  rw [if_neg (by rw [hh]; exact Bool.false_ne_true)]
  dsimp only
  rw [if_neg (by rw [hv]; exact Bool.false_ne_true),
    if_neg (by rw [hs]; exact Bool.false_ne_true)]

/-- A `Sync` delivery pushes the event inline. -/
theorem deliverOne_sync_eq (event : Event) (l : Listener) (ls : LoopSt)
    (hh : (ls.panicked || ls.stuck) = false)
    (hv : hasFlag (applyMiddlewares event l.middlewares).Flags FlagVoid = false)
    (hs : hasFlag (applyMiddlewares event l.middlewares).Flags FlagSync = true) :
    deliverOne event ls l =
      (match lookupCh ls.s.chans l.ch with
      | none => { ls with panicked := true }
      | some c =>
        match pushEventGo ls.done c (applyMiddlewares event l.middlewares) false with
        | none => { ls with stuck := true }
        | some (success, remove, c') =>
          { ls with
            s := { ls.s with chans := setCh ls.s.chans l.ch c' },
            sends := ls.sends
              ++ (if success then [(l.ch, applyMiddlewares event l.middlewares)] else []),
            defers := (if remove then [(event.Topic, l.ch)] else []) ++ ls.defers }) := by
  unfold deliverOne
  rw [if_neg (by rw [hh]; exact Bool.false_ne_true)]
  dsimp only
  rw [if_neg (by rw [hv]; exact Bool.false_ne_true), if_pos hs]

/-- `deliverOne` neither reads nor writes the listeners map. -/
theorem deliverOne_withListeners (event : Event) (l : Listener)
    (m : List (String × List Listener)) (ls : LoopSt) :
    deliverOne event (withListeners m ls) l = withListeners m (deliverOne event ls l) := by
  unfold withListeners deliverOne
  dsimp only
  repeat' split
  all_goals rfl

/-- Folding `deliverOne` commutes with replacing the listeners map. -/
theorem foldl_deliverOne_withListeners (event : Event)
    (m : List (String × List Listener)) (L : List Listener) :
    ∀ ls : LoopSt, L.foldl (deliverOne event) (withListeners m ls)
      = withListeners m (L.foldl (deliverOne event) ls) := by
  induction L with
  | nil => intro ls; rfl
  | cons x xs ih =>
    intro ls
    rw [List.foldl_cons, List.foldl_cons, deliverOne_withListeners, ih]

/-- If no async task was spawned, the wait flag is still down — and
conversely a down wait flag means an empty task queue. -/
theorem deliverOne_hw_tasks (event : Event) (l : Listener) (ls : LoopSt)
    (h : ls.haveToWait = false → ls.tasks = []) :
    (deliverOne event ls l).haveToWait = false → (deliverOne event ls l).tasks = [] := by
  unfold deliverOne
  dsimp only
  repeat' split
  all_goals intro hq
  all_goals first
    | exact h hq
    | exact absurd hq (by simp)

theorem foldl_deliverOne_hw_tasks (event : Event) (L : List Listener) :
    ∀ ls : LoopSt, (ls.haveToWait = false → ls.tasks = []) →
      (L.foldl (deliverOne event) ls).haveToWait = false →
      (L.foldl (deliverOne event) ls).tasks = [] := by
  induction L with
  | nil => intro ls h; exact h
  | cons x xs ih =>
    intro ls h
    rw [List.foldl_cons]
    exact ih (deliverOne event ls x) (deliverOne_hw_tasks event x ls h)

/-- If a listener fold ends neither panicked nor stuck, it started that
way. -/
theorem deliverFold_nohalt (event : Event) (L : List Listener) (ls : LoopSt)
    (h : ((L.foldl (deliverOne event) ls).panicked
      || (L.foldl (deliverOne event) ls).stuck) = false) :
    (ls.panicked || ls.stuck) = false := by
  cases hb : (ls.panicked || ls.stuck) with
  | false => rfl
  | true =>
    rw [foldl_deliverOne_halt event L ls hb] at h
    exact hb.symm.trans h

/-- If the close block leaves the run neither panicked nor stuck, the
run entered it that way. -/
theorem closeBlock_nohalt (ls : LoopSt)
    (h : ((closeBlock ls).panicked || (closeBlock ls).stuck) = false) :
    (ls.panicked || ls.stuck) = false := by
  cases hb : (ls.panicked || ls.stuck) with
  | false => rfl
  | true =>
    rw [closeBlock_halt ls hb] at h
    exact hb.symm.trans h

/-- With spawned tasks pending, the close block only books a waiter. -/
theorem closeBlock_eq_wait (ls : LoopSt)
    (hh : (ls.panicked || ls.stuck) = false) (hw : ls.haveToWait = true) :
    closeBlock ls = { ls with waiters := ls.waiters + 1 } := by
  unfold closeBlock
  rw [if_neg (by rw [hh]; exact Bool.false_ne_true), if_pos hw]

/-- With no spawned task, the close block closes a fresh done signal. -/
theorem closeBlock_eq_close (ls : LoopSt)
    (hh : (ls.panicked || ls.stuck) = false) (hw : ls.haveToWait = false)
    (hc : ls.done.closed = false) :
    closeBlock ls
      = { ls with done := { ls.done with closed := true },
                  directCloses := ls.directCloses + 1 } := by
  unfold closeBlock
  rw [if_neg (by rw [hh]; exact Bool.false_ne_true),
    if_neg (by rw [hw]; exact Bool.false_ne_true),
    if_neg (by rw [hc]; exact Bool.false_ne_true)]

/-- The waiters only ever touch the done signal. -/
theorem finishWaiters_fields (ls : LoopSt) :
    (finishWaiters ls).s = ls.s ∧ (finishWaiters ls).sends = ls.sends
    ∧ (finishWaiters ls).panicked = ls.panicked
    ∧ (finishWaiters ls).stuck = ls.stuck := by
  unfold finishWaiters
  repeat' split
  all_goals exact ⟨rfl, rfl, rfl, rfl⟩

/-- Delivery to the same listener, not on channel `a`, acts identically
on two states related away from `a`. -/
theorem deliverOne_iso_ne (event : Event) (a : Nat) (l : Listener) (hla : l.ch ≠ a)
    (x y : LoopSt)
    (hpan : x.panicked = y.panicked) (hstk : x.stuck = y.stuck)
    (hdone : x.done = y.done)
    (hch : exceptCh a x.s.chans = exceptCh a y.s.chans)
    (hsends : exceptSends a x.sends = exceptSends a y.sends)
    (htasks : exceptTasks a x.tasks = exceptTasks a y.tasks)
    (hdefers : exceptDefers a x.defers = exceptDefers a y.defers) :
    (deliverOne event x l).panicked = (deliverOne event y l).panicked
    ∧ (deliverOne event x l).stuck = (deliverOne event y l).stuck
    ∧ exceptCh a (deliverOne event x l).s.chans = exceptCh a (deliverOne event y l).s.chans
    ∧ exceptSends a (deliverOne event x l).sends = exceptSends a (deliverOne event y l).sends
    ∧ exceptTasks a (deliverOne event x l).tasks = exceptTasks a (deliverOne event y l).tasks
    ∧ exceptDefers a (deliverOne event x l).defers
      = exceptDefers a (deliverOne event y l).defers := by
  have hg : (x.panicked || x.stuck) = (y.panicked || y.stuck) := by rw [hpan, hstk]
  cases hgx : (x.panicked || x.stuck) with
  | true =>
    rw [deliverOne_halt event x l hgx, deliverOne_halt event y l (hg.symm.trans hgx)]
    exact ⟨hpan, hstk, hch, hsends, htasks, hdefers⟩
  | false =>
    have hgy : (y.panicked || y.stuck) = false := hg.symm.trans hgx
    cases hv : hasFlag (applyMiddlewares event l.middlewares).Flags FlagVoid with
    | true =>
      rw [deliverOne_void event l x hgx hv, deliverOne_void event l y hgy hv]
      exact ⟨hpan, hstk, hch, hsends, htasks, hdefers⟩
    | false =>
      cases hs : hasFlag (applyMiddlewares event l.middlewares).Flags FlagSync with
      | false =>
        rw [deliverOne_async event l x hgx hv hs, deliverOne_async event l y hgy hv hs]
        refine ⟨hpan, hstk, hch, hsends, ?_, hdefers⟩
        unfold exceptTasks at htasks ⊢
        rw [List.filter_append, List.filter_append, htasks]
      | true =>
        have hlk : lookupCh x.s.chans l.ch = lookupCh y.s.chans l.ch := by
          rw [← lookupCh_exceptCh a l.ch hla x.s.chans, hch,
            lookupCh_exceptCh a l.ch hla]
        rw [deliverOne_sync_eq event l x hgx hv hs,
          deliverOne_sync_eq event l y hgy hv hs, hlk, hdone]
        cases hc : lookupCh y.s.chans l.ch with
        | none => exact ⟨rfl, hstk, hch, hsends, htasks, hdefers⟩
        | some c =>
          dsimp only
          cases hp : pushEventGo y.done c (applyMiddlewares event l.middlewares) false with
          | none => exact ⟨hpan, rfl, hch, hsends, htasks, hdefers⟩
          | some v =>
            obtain ⟨succ, rem, c'⟩ := v
            dsimp only
            refine ⟨hpan, hstk, ?_, ?_, htasks, ?_⟩
            · rw [exceptCh_setCh_ne, exceptCh_setCh_ne, hch]
            · unfold exceptSends at hsends ⊢
              rw [List.filter_append, List.filter_append, hsends]
            · unfold exceptDefers at hdefers ⊢
              rw [List.filter_append, List.filter_append, hdefers]

/-- The fold of same-listener deliveries away from `a` preserves the
relation between two runs. -/
theorem deliverFold_iso (event : Event) (a : Nat) :
    ∀ (L : List Listener), (∀ l ∈ L, l.ch ≠ a) → ∀ (x y : LoopSt),
      x.panicked = y.panicked → x.stuck = y.stuck → x.done = y.done →
      exceptCh a x.s.chans = exceptCh a y.s.chans →
      exceptSends a x.sends = exceptSends a y.sends →
      exceptTasks a x.tasks = exceptTasks a y.tasks →
      exceptDefers a x.defers = exceptDefers a y.defers →
      (L.foldl (deliverOne event) x).panicked = (L.foldl (deliverOne event) y).panicked
      ∧ (L.foldl (deliverOne event) x).stuck = (L.foldl (deliverOne event) y).stuck
      ∧ (L.foldl (deliverOne event) x).done = x.done
      ∧ (L.foldl (deliverOne event) y).done = y.done
      ∧ exceptCh a (L.foldl (deliverOne event) x).s.chans
        = exceptCh a (L.foldl (deliverOne event) y).s.chans
      ∧ exceptSends a (L.foldl (deliverOne event) x).sends
        = exceptSends a (L.foldl (deliverOne event) y).sends
      ∧ exceptTasks a (L.foldl (deliverOne event) x).tasks
        = exceptTasks a (L.foldl (deliverOne event) y).tasks
      ∧ exceptDefers a (L.foldl (deliverOne event) x).defers
        = exceptDefers a (L.foldl (deliverOne event) y).defers := by
  intro L
  induction L with
  | nil =>
    intro _ x y hpan hstk hdone hch hsends htasks hdefers
    exact ⟨hpan, hstk, rfl, rfl, hch, hsends, htasks, hdefers⟩
  | cons l L ih =>
    intro hall x y hpan hstk hdone hch hsends htasks hdefers
    rw [List.foldl_cons, List.foldl_cons]
    obtain ⟨k1, k2, k3, k4, k5, k6⟩ := deliverOne_iso_ne event a l
      (hall l (List.mem_cons_self _ _)) x y hpan hstk hdone hch hsends htasks hdefers
    have hdone' : (deliverOne event x l).done = (deliverOne event y l).done := by
      rw [deliverOne_done, deliverOne_done, hdone]
    obtain ⟨m1, m2, m3, m4, m5, m6, m7, m8⟩ :=
      ih (fun q hq => hall q (List.mem_cons_of_mem _ hq))
        (deliverOne event x l) (deliverOne event y l) k1 k2 hdone' k3 k4 k5 k6
    exact ⟨m1, m2, m3.trans (deliverOne_done event x l),
      m4.trans (deliverOne_done event y l), m5, m6, m7, m8⟩

/-- Delivery to a listener on channel `a` has no visible effect away
from `a`. -/
theorem deliverOne_aFrame (event : Event) (a : Nat) (l : Listener)
    (hla : l.ch = a) (x : LoopSt) :
    exceptCh a (deliverOne event x l).s.chans = exceptCh a x.s.chans
    ∧ exceptSends a (deliverOne event x l).sends = exceptSends a x.sends
    ∧ exceptTasks a (deliverOne event x l).tasks = exceptTasks a x.tasks
    ∧ exceptDefers a (deliverOne event x l).defers = exceptDefers a x.defers := by
  subst hla
  unfold deliverOne
  dsimp only
  repeat' split
  all_goals refine ⟨?_, ?_, ?_, ?_⟩
  all_goals first
    | rfl
    | exact exceptCh_setCh_self l.ch _ x.s.chans
    | simp [exceptSends, exceptTasks, exceptDefers, List.filter_append]

/-- `Emit` on a matcher error: the error goes on `done` and the state is
untouched. -/
theorem emitGo_err_eq (pm : PatternMatcher) (s : Sys) (topic : String)
    (args : List Nat) (e : Unit)
    (hm : matchedGo pm topic (s.listeners.map (·.1)) = .error e) :
    emitGo pm s topic args
      = { st := s, done := { hasValue := true, closed := true }, directCloses := 1,
          waiters := 0, sends := [], panicked := false, stuck := false } := by
  unfold emitGo
  rw [hm]

/-- `Emit` on a matcher success is the topic loop followed by the
post-loop pipeline. -/
theorem emitGo_ok_eq (pm : PatternMatcher) (s : Sys) (topic : String)
    (args : List Nat) (mtch : List String)
    (hm : matchedGo pm topic (s.listeners.map (·.1)) = .ok mtch) :
    emitGo pm s topic args
      = { st := (postLoop pm (mtch.foldl (doTopic pm topic args) (initLS s))).s,
          done := (postLoop pm (mtch.foldl (doTopic pm topic args) (initLS s))).done,
          directCloses := (postLoop pm
            (mtch.foldl (doTopic pm topic args) (initLS s))).directCloses,
          waiters := (postLoop pm (mtch.foldl (doTopic pm topic args) (initLS s))).waiters,
          sends := (postLoop pm (mtch.foldl (doTopic pm topic args) (initLS s))).sends,
          panicked := (postLoop pm
            (mtch.foldl (doTopic pm topic args) (initLS s))).panicked,
          stuck := (postLoop pm (mtch.foldl (doTopic pm topic args) (initLS s))).stuck } := by
  unfold emitGo postLoop initLS
  rw [hm]

/-- One non-halted topic iteration, written out. -/
theorem doTopic_eq (pm : PatternMatcher) (topic : String) (args : List Nat)
    (ls : LoopSt) (k : String) (hh : (ls.panicked || ls.stuck) = false) :
    doTopic pm topic args ls k
      = (if hasFlag (applyMiddlewares
            { Topic := k, OriginalTopic := topic, Flags := 0, Args := args }
            (getMiddlewaresGo pm ls.s.middlewares k)).Flags FlagVoid then ls
        else closeBlock ((((lookupL ls.s.listeners k).getD []).reverse).foldl
          (deliverOne (applyMiddlewares
            { Topic := k, OriginalTopic := topic, Flags := 0, Args := args }
            (getMiddlewaresGo pm ls.s.middlewares k))) ls)) := by
  unfold doTopic
  rw [if_neg (by rw [hh]; exact Bool.false_ne_true)]

/-- If the post-loop pipeline ends neither panicked nor stuck, it also
started that way. -/
theorem postLoop_nohalt (pm : PatternMatcher) (x : LoopSt)
    (h : ((postLoop pm x).panicked || (postLoop pm x).stuck) = false) :
    (x.panicked || x.stuck) = false := by
  unfold postLoop at h
  obtain ⟨_, _, f3, f4⟩ := finishWaiters_fields
    ((x.defers.foldl (runDefer pm) x).tasks.foldl (runTask pm)
      (x.defers.foldl (runDefer pm) x))
  rw [f3, f4] at h
  have h2 := taskFold_nohalt pm (x.defers.foldl (runDefer pm) x).tasks
    (x.defers.foldl (runDefer pm) x) h
  obtain ⟨_, _, _, d4, d5⟩ := foldl_runDefer_fields pm x.defers x
  rw [d5, d4] at h2
  exact h2

/-- The post-loop pipelines of two runs whose loop-phase outcomes agree
away from `a` end with the same visible state away from `a`. -/
theorem postLoop_iso (pm : PatternMatcher) (T : String) (a : Nat) (x y : LoopSt)
    (hf₁ : ((postLoop pm x).panicked || (postLoop pm x).stuck) = false)
    (hf₂ : ((postLoop pm y).panicked || (postLoop pm y).stuck) = false)
    (hsk₁ : SingleKey T x.s.listeners) (hsk₂ : SingleKey T y.s.listeners)
    (hreg : lview a x.s.listeners = lview a y.s.listeners)
    (hch : exceptCh a x.s.chans = exceptCh a y.s.chans)
    (hsends : exceptSends a x.sends = exceptSends a y.sends)
    (htasks : exceptTasks a x.tasks = exceptTasks a y.tasks)
    (hdefers : exceptDefers a x.defers = exceptDefers a y.defers)
    (hdone : exceptTasks a x.tasks ≠ [] → x.done = y.done) :
    lview a (postLoop pm x).s.listeners = lview a (postLoop pm y).s.listeners
    ∧ exceptCh a (postLoop pm x).s.chans = exceptCh a (postLoop pm y).s.chans
    ∧ exceptSends a (postLoop pm x).sends = exceptSends a (postLoop pm y).sends := by
  have hx0 : (x.panicked || x.stuck) = false := postLoop_nohalt pm x hf₁
  have hy0 : (y.panicked || y.stuck) = false := postLoop_nohalt pm y hf₂
  obtain ⟨z1s, z1t, z1d, _, _⟩ := foldl_runDefer_fields pm x.defers x
  obtain ⟨z2s, z2t, z2d, _, _⟩ := foldl_runDefer_fields pm y.defers y
  obtain ⟨d1, d2, d3, d4⟩ := deferPhase_iso pm T a x.defers y.defers x y
    hx0 hy0 hdefers hsk₁ hsk₂ hreg hch
  unfold postLoop at hf₁ hf₂ ⊢
  obtain ⟨w1s, w1snd, w1p, w1st⟩ := finishWaiters_fields
    ((x.defers.foldl (runDefer pm) x).tasks.foldl (runTask pm)
      (x.defers.foldl (runDefer pm) x))
  obtain ⟨w2s, w2snd, w2p, w2st⟩ := finishWaiters_fields
    ((y.defers.foldl (runDefer pm) y).tasks.foldl (runTask pm)
      (y.defers.foldl (runDefer pm) y))
  rw [w1p, w1st] at hf₁
  rw [w2p, w2st] at hf₂
  have htasks' : exceptTasks a (x.defers.foldl (runDefer pm) x).tasks
      = exceptTasks a (y.defers.foldl (runDefer pm) y).tasks := by
    rw [z1t, z2t]
    exact htasks
  have hdone' : exceptTasks a (x.defers.foldl (runDefer pm) x).tasks ≠ []
      → (x.defers.foldl (runDefer pm) x).done
        = (y.defers.foldl (runDefer pm) y).done := by
    intro hne
    rw [z1d, z2d]
    refine hdone ?_
    rw [z1t] at hne
    exact hne
  have hsends' : exceptSends a (x.defers.foldl (runDefer pm) x).sends
      = exceptSends a (y.defers.foldl (runDefer pm) y).sends := by
    rw [z1s, z2s]
    exact hsends
  obtain ⟨t1, t2, t3, t4, t5⟩ := taskPhase_iso pm T a
    (x.defers.foldl (runDefer pm) x).tasks (y.defers.foldl (runDefer pm) y).tasks
    (x.defers.foldl (runDefer pm) x) (y.defers.foldl (runDefer pm) y)
    hf₁ hf₂ htasks' hdone' d1 d2 d3 d4 hsends'
  rw [w1s, w2s, w1snd, w2snd]
  exact ⟨t3, t4, t5⟩

/-- The view away from `a` of a single-topic registry whose `a`-listener
sits in the middle. -/
theorem lview_single_mid (a : Nat) (T : String) (P Q : List Listener)
    (A : Listener) (hA : A.ch = a) :
    lview a [(T, P ++ A :: Q)] = (P ++ Q).filter (fun x => x.ch != a) := by
  rw [lview_single, List.filter_append, List.filter_append, List.filter_cons]
  simp [hA, bne]

/-- The single topic iteration of a publish on a one-topic registry,
written out. -/
theorem doTopic_init_single (pm : PatternMatcher) (topic : String)
    (args : List Nat) (T : String) (L : List Listener) (cap : Nat)
    (mws : List (String × List Middleware)) (C : List (Nat × ChanSt))
    (log : List Nat) (n : Nat) :
    doTopic pm topic args (initLS
      { listeners := [(T, L)], capacity := cap, middlewares := mws,
        chans := C, closedLog := log, nextId := n }) T
      = (if hasFlag (applyMiddlewares
            { Topic := T, OriginalTopic := topic, Flags := 0, Args := args }
            (getMiddlewaresGo pm mws T)).Flags FlagVoid
         then initLS
          { listeners := [(T, L)], capacity := cap, middlewares := mws,
            chans := C, closedLog := log, nextId := n }
         else closeBlock ((L.reverse).foldl (deliverOne (applyMiddlewares
            { Topic := T, OriginalTopic := topic, Flags := 0, Args := args }
            (getMiddlewaresGo pm mws T)))
          (initLS
            { listeners := [(T, L)], capacity := cap, middlewares := mws,
              chans := C, closedLog := log, nextId := n }))) := by
  rw [doTopic_eq pm topic args (initLS
    { listeners := [(T, L)], capacity := cap, middlewares := mws,
      chans := C, closedLog := log, nextId := n }) T rfl]
  have hl : lookupL (initLS
      { listeners := [(T, L)], capacity := cap, middlewares := mws,
        chans := C, closedLog := log, nextId := n } : LoopSt).s.listeners T
      = some L := lookupL_single T L
  rw [hl, Option.getD_some]
  rfl

/-- The close block never touches the sends, tasks or removal queues. -/
theorem closeBlock_fields (ls : LoopSt) :
    (closeBlock ls).sends = ls.sends ∧ (closeBlock ls).tasks = ls.tasks
    ∧ (closeBlock ls).defers = ls.defers := by
  unfold closeBlock
  repeat' split
  all_goals exact ⟨rfl, rfl, rfl⟩

/-- C8: per-listener middleware isolation for flags.  Within one publish
on a single matched topic holding listeners `P ++ A :: Q`, swapping the
middlewares of the one listener `A` (whose queue `a` is not shared with
any other listener) — e.g. making it set `FlagVoid` or any other flag —
leaves every other listener untouched: provided neither run panics or
gets stuck, both runs end with the same registry away from `a`, the same
state of every queue other than `a`, and the same sequence of delivered
events on the other queues (so the other listeners' effective flags and
delivery outcomes are unchanged). -/
theorem c8_per_listener_isolation
    (pm : PatternMatcher) (T topic : String) (args : List Nat)
    (cap : Nat) (mws : List (String × List Middleware))
    (C : List (Nat × ChanSt)) (log : List Nat) (n : Nat)
    (P Q : List Listener) (A₁ A₂ : Listener) (a : Nat)
    (h1 : A₁.ch = a) (h2 : A₂.ch = a) (hfresh : a ∉ chIds (P ++ Q))
    (s₁ s₂ : Sys)
    (hS₁ : s₁ =
      { listeners := [(T, P ++ A₁ :: Q)], capacity := cap,
        middlewares := mws, chans := C, closedLog := log, nextId := n })
    (hS₂ : s₂ =
      { listeners := [(T, P ++ A₂ :: Q)], capacity := cap,
        middlewares := mws, chans := C, closedLog := log, nextId := n })
    (hp₁ : (emitGo pm s₁ topic args).panicked = false)
    (hq₁ : (emitGo pm s₁ topic args).stuck = false)
    (hp₂ : (emitGo pm s₂ topic args).panicked = false)
    (hq₂ : (emitGo pm s₂ topic args).stuck = false) :
    lview a (emitGo pm s₁ topic args).st.listeners
      = lview a (emitGo pm s₂ topic args).st.listeners
    ∧ exceptCh a (emitGo pm s₁ topic args).st.chans
      = exceptCh a (emitGo pm s₂ topic args).st.chans
    ∧ exceptSends a (emitGo pm s₁ topic args).sends
      = exceptSends a (emitGo pm s₂ topic args).sends := by
  subst hS₁
  subst hS₂
  have hPne : ∀ l ∈ P.reverse, l.ch ≠ a := by
    intro l hl hla
    refine hfresh ?_
    rw [← hla]
    unfold chIds
    rw [List.map_append]
    exact List.mem_append.mpr (Or.inl (List.mem_map.mpr
      ⟨l, List.mem_reverse.mp hl, rfl⟩))
  have hQne : ∀ l ∈ Q.reverse, l.ch ≠ a := by
    intro l hl hla
    refine hfresh ?_
    rw [← hla]
    unfold chIds
    rw [List.map_append]
    exact List.mem_append.mpr (Or.inr (List.mem_map.mpr
      ⟨l, List.mem_reverse.mp hl, rfl⟩))
  rcases matchedGo_single pm topic T with hm | hm | hm
  · have hm₁ : matchedGo pm topic
        ((⟨[(T, P ++ A₁ :: Q)], cap, mws, C, log, n⟩ : Sys).listeners.map (·.1)) = .error () := hm
    have hm₂ : matchedGo pm topic
        ((⟨[(T, P ++ A₂ :: Q)], cap, mws, C, log, n⟩ : Sys).listeners.map (·.1)) = .error () := hm
    rw [emitGo_err_eq pm _ topic args () hm₁, emitGo_err_eq pm _ topic args () hm₂]
    exact ⟨(lview_single_mid a T P Q A₁ h1).trans
      (lview_single_mid a T P Q A₂ h2).symm, rfl, rfl⟩
  · have hm₁ : matchedGo pm topic
        ((⟨[(T, P ++ A₁ :: Q)], cap, mws, C, log, n⟩ : Sys).listeners.map (·.1)) = .ok [] := hm
    have hm₂ : matchedGo pm topic
        ((⟨[(T, P ++ A₂ :: Q)], cap, mws, C, log, n⟩ : Sys).listeners.map (·.1)) = .ok [] := hm
    rw [emitGo_ok_eq pm _ topic args [] hm₁, emitGo_ok_eq pm _ topic args [] hm₂]
    exact ⟨(lview_single_mid a T P Q A₁ h1).trans
      (lview_single_mid a T P Q A₂ h2).symm, rfl, rfl⟩
  · have hm₁ : matchedGo pm topic
        ((⟨[(T, P ++ A₁ :: Q)], cap, mws, C, log, n⟩ : Sys).listeners.map (·.1)) = .ok [T] := hm
    have hm₂ : matchedGo pm topic
        ((⟨[(T, P ++ A₂ :: Q)], cap, mws, C, log, n⟩ : Sys).listeners.map (·.1)) = .ok [T] := hm
    have hfPL₁ : ((emitGo pm
          (⟨[(T, P ++ A₁ :: Q)], cap, mws, C, log, n⟩ : Sys)
          topic args).panicked
        || (emitGo pm (⟨[(T, P ++ A₁ :: Q)], cap, mws, C, log, n⟩ : Sys)
          topic args).stuck) = false := by
      rw [hp₁, hq₁]
      rfl
    have hfPL₂ : ((emitGo pm
          (⟨[(T, P ++ A₂ :: Q)], cap, mws, C, log, n⟩ : Sys)
          topic args).panicked
        || (emitGo pm (⟨[(T, P ++ A₂ :: Q)], cap, mws, C, log, n⟩ : Sys)
          topic args).stuck) = false := by
      rw [hp₂, hq₂]
      rfl
    rw [emitGo_ok_eq pm _ topic args [T] hm₁] at hfPL₁ ⊢
    rw [emitGo_ok_eq pm _ topic args [T] hm₂] at hfPL₂ ⊢
    dsimp only at hfPL₁ hfPL₂ ⊢
    simp only [List.foldl_cons, List.foldl_nil] at hfPL₁ hfPL₂ ⊢
    rw [doTopic_init_single pm topic args T (P ++ A₁ :: Q) cap mws C log n]
      at hfPL₁ ⊢
    rw [doTopic_init_single pm topic args T (P ++ A₂ :: Q) cap mws C log n]
      at hfPL₂ ⊢
    set E := applyMiddlewares
      { Topic := T, OriginalTopic := topic, Flags := 0, Args := args }
      (getMiddlewaresGo pm mws T) with hE
    by_cases hEv : hasFlag E.Flags FlagVoid = true
    · rw [if_pos hEv, if_pos hEv]
      exact ⟨(lview_single_mid a T P Q A₁ h1).trans
        (lview_single_mid a T P Q A₂ h2).symm, rfl, rfl⟩
    · rw [if_neg hEv, if_neg hEv]
      rw [if_neg hEv] at hfPL₁
      rw [if_neg hEv] at hfPL₂
      have hr₁ : (P ++ A₁ :: Q).reverse = (Q.reverse ++ [A₁]) ++ P.reverse := by
        rw [List.reverse_append, List.reverse_cons]
      have hr₂ : (P ++ A₂ :: Q).reverse = (Q.reverse ++ [A₂]) ++ P.reverse := by
        rw [List.reverse_append, List.reverse_cons]
      rw [hr₁] at hfPL₁ ⊢
      rw [hr₂] at hfPL₂ ⊢
      simp only [List.foldl_append, List.foldl_cons, List.foldl_nil]
        at hfPL₁ hfPL₂ ⊢
      set x0 : LoopSt := initLS
        { listeners := [(T, P ++ A₁ :: Q)], capacity := cap,
          middlewares := mws, chans := C, closedLog := log, nextId := n }
        with hx0
      set y0 : LoopSt := initLS
        { listeners := [(T, P ++ A₂ :: Q)], capacity := cap,
          middlewares := mws, chans := C, closedLog := log, nextId := n }
        with hy0
      set xQ := Q.reverse.foldl (deliverOne E) x0 with hxQ
      set yQ := Q.reverse.foldl (deliverOne E) y0 with hyQ
      set xA := deliverOne E xQ A₁ with hxA
      set yA := deliverOne E yQ A₂ with hyA
      set xP := P.reverse.foldl (deliverOne E) xA with hxP
      set yP := P.reverse.foldl (deliverOne E) yA with hyP
      obtain ⟨q1, q2, q3, q4, q5, q6, q7, q8⟩ :=
        deliverFold_iso E a Q.reverse hQne x0 y0 rfl rfl rfl rfl rfl rfl rfl
      have hcb₁ := postLoop_nohalt pm _ hfPL₁
      have hxP0 := closeBlock_nohalt _ hcb₁
      have hxA0 := deliverFold_nohalt E P.reverse _ hxP0
      have hcb₂ := postLoop_nohalt pm _ hfPL₂
      have hyP0 := closeBlock_nohalt _ hcb₂
      have hyA0 := deliverFold_nohalt E P.reverse _ hyP0
      obtain ⟨hxAp, hxAs⟩ := Bool.or_eq_false_iff.mp hxA0
      obtain ⟨hyAp, hyAs⟩ := Bool.or_eq_false_iff.mp hyA0
      obtain ⟨fa1, fa2, fa3, fa4⟩ := deliverOne_aFrame E a A₁ h1 xQ
      obtain ⟨fb1, fb2, fb3, fb4⟩ := deliverOne_aFrame E a A₂ h2 yQ
      have hdA₁ : xA.done = { hasValue := false, closed := false } := by
        rw [hxA, deliverOne_done, q3]
        rfl
      have hdA₂ : yA.done = { hasValue := false, closed := false } := by
        rw [hyA, deliverOne_done, q4]
        rfl
      obtain ⟨p1, p2, p3, p4, p5, p6, p7, p8⟩ :=
        deliverFold_iso E a P.reverse hPne xA yA
          (hxAp.trans hyAp.symm) (hxAs.trans hyAs.symm)
          (hdA₁.trans hdA₂.symm)
          (fa1.trans (q5.trans fb1.symm)) (fa2.trans (q6.trans fb2.symm))
          (fa3.trans (q7.trans fb3.symm)) (fa4.trans (q8.trans fb4.symm))
      have hdP₁ : xP.done = { hasValue := false, closed := false } :=
        p3.trans hdA₁
      have hdP₂ : yP.done = { hasValue := false, closed := false } :=
        p4.trans hdA₂
      have hreg₁ : xP.s.listeners = [(T, P ++ A₁ :: Q)] := by
        rw [hxP, (foldl_deliverOne_reg E P.reverse xA).1, hxA,
          (deliverOne_reg E xQ A₁).1, hxQ,
          (foldl_deliverOne_reg E Q.reverse x0).1, hx0]
        rfl
      have hreg₂ : yP.s.listeners = [(T, P ++ A₂ :: Q)] := by
        rw [hyP, (foldl_deliverOne_reg E P.reverse yA).1, hyA,
          (deliverOne_reg E yQ A₂).1, hyQ,
          (foldl_deliverOne_reg E Q.reverse y0).1, hy0]
        rfl
      have hwt₁ : xP.haveToWait = false → xP.tasks = [] := by
        rw [hxP]
        refine foldl_deliverOne_hw_tasks E P.reverse xA ?_
        rw [hxA]
        refine deliverOne_hw_tasks E A₁ xQ ?_
        rw [hxQ]
        refine foldl_deliverOne_hw_tasks E Q.reverse x0 ?_
        intro _
        rw [hx0]
        rfl
      have hwt₂ : yP.haveToWait = false → yP.tasks = [] := by
        rw [hyP]
        refine foldl_deliverOne_hw_tasks E P.reverse yA ?_
        rw [hyA]
        refine deliverOne_hw_tasks E A₂ yQ ?_
        rw [hyQ]
        refine foldl_deliverOne_hw_tasks E Q.reverse y0 ?_
        intro _
        rw [hy0]
        rfl
      have hsk₁' : SingleKey T (closeBlock xP).s.listeners := by
        rw [closeBlock_s, hreg₁]
        exact Or.inr ⟨P ++ A₁ :: Q, rfl, by simp⟩
      have hsk₂' : SingleKey T (closeBlock yP).s.listeners := by
        rw [closeBlock_s, hreg₂]
        exact Or.inr ⟨P ++ A₂ :: Q, rfl, by simp⟩
      have hreg' : lview a (closeBlock xP).s.listeners
          = lview a (closeBlock yP).s.listeners := by
        rw [closeBlock_s, closeBlock_s, hreg₁, hreg₂,
          lview_single_mid a T P Q A₁ h1, lview_single_mid a T P Q A₂ h2]
      have hch' : exceptCh a (closeBlock xP).s.chans
          = exceptCh a (closeBlock yP).s.chans := by
        rw [closeBlock_s, closeBlock_s]
        exact p5
      have hsends' : exceptSends a (closeBlock xP).sends
          = exceptSends a (closeBlock yP).sends := by
        rw [(closeBlock_fields xP).1, (closeBlock_fields yP).1]
        exact p6
      have htasks' : exceptTasks a (closeBlock xP).tasks
          = exceptTasks a (closeBlock yP).tasks := by
        rw [(closeBlock_fields xP).2.1, (closeBlock_fields yP).2.1]
        exact p7
      have hdefers' : exceptDefers a (closeBlock xP).defers
          = exceptDefers a (closeBlock yP).defers := by
        rw [(closeBlock_fields xP).2.2, (closeBlock_fields yP).2.2]
        exact p8
      by_cases hhw : xP.haveToWait = yP.haveToWait
      · have hdone' : exceptTasks a (closeBlock xP).tasks ≠ []
            → (closeBlock xP).done = (closeBlock yP).done := by
          intro _
          by_cases hwv : xP.haveToWait = true
          · rw [closeBlock_eq_wait xP hxP0 hwv,
              closeBlock_eq_wait yP hyP0 (hhw ▸ hwv)]
            exact hdP₁.trans hdP₂.symm
          · have hwf₁ : xP.haveToWait = false := Bool.not_eq_true _ ▸ hwv
            have hwf₂ : yP.haveToWait = false := hhw ▸ hwf₁
            rw [closeBlock_eq_close xP hxP0 hwf₁ (by rw [hdP₁]),
              closeBlock_eq_close yP hyP0 hwf₂ (by rw [hdP₂])]
            exact congrArg (fun d : DoneSt => { d with closed := true })
              (hdP₁.trans hdP₂.symm)
        obtain ⟨o1, o2, o3⟩ := postLoop_iso pm T a (closeBlock xP)
          (closeBlock yP) hfPL₁ hfPL₂ hsk₁' hsk₂' hreg' hch' hsends'
          htasks' hdefers' hdone'
        exact ⟨o1, o2, o3⟩
      · have hempty : exceptTasks a (closeBlock xP).tasks = [] := by
          rw [(closeBlock_fields xP).2.1]
          cases hb₁ : xP.haveToWait with
          | false =>
            rw [hwt₁ hb₁]
            rfl
          | true =>
            cases hb₂ : yP.haveToWait with
            | false =>
              rw [p7]
              rw [hwt₂ hb₂]
              rfl
            | true => exact absurd (hb₁.trans hb₂.symm) hhw
        have hdone' : exceptTasks a (closeBlock xP).tasks ≠ []
            → (closeBlock xP).done = (closeBlock yP).done := by
          intro hne
          exact absurd hempty hne
        obtain ⟨o1, o2, o3⟩ := postLoop_iso pm T a (closeBlock xP)
          (closeBlock yP) hfPL₁ hfPL₂ hsk₁' hsk₂' hreg' hch' hsends'
          htasks' hdefers' hdone'
        exact ⟨o1, o2, o3⟩

/-- Witness for C8 at a concrete input: topic `"t"` with a plain
listener on queue 0 plus listener `A` on queue 1, where `A`'s
middlewares are `[Void]` in one run and `[]` in the other; all
hypotheses evaluate, and the runs agree away from queue 1. -/
theorem c8_per_listener_isolation_witness :
    ((1 : Nat) ∉ chIds ([⟨0, []⟩] ++ ([] : List Listener)))
    ∧ (emitGo pathMatchLit
        ⟨[("t", [⟨0, []⟩, ⟨1, [Void]⟩])], 1, [],
          [(0, ⟨1, []⟩), (1, ⟨1, []⟩)], [], 2⟩ "t" []).panicked = false
    ∧ (emitGo pathMatchLit
        ⟨[("t", [⟨0, []⟩, ⟨1, [Void]⟩])], 1, [],
          [(0, ⟨1, []⟩), (1, ⟨1, []⟩)], [], 2⟩ "t" []).stuck = false
    ∧ (emitGo pathMatchLit
        ⟨[("t", [⟨0, []⟩, ⟨1, []⟩])], 1, [],
          [(0, ⟨1, []⟩), (1, ⟨1, []⟩)], [], 2⟩ "t" []).panicked = false
    ∧ (emitGo pathMatchLit
        ⟨[("t", [⟨0, []⟩, ⟨1, []⟩])], 1, [],
          [(0, ⟨1, []⟩), (1, ⟨1, []⟩)], [], 2⟩ "t" []).stuck = false
    ∧ (lview 1 (emitGo pathMatchLit
          ⟨[("t", [⟨0, []⟩, ⟨1, [Void]⟩])], 1, [],
            [(0, ⟨1, []⟩), (1, ⟨1, []⟩)], [], 2⟩ "t" []).st.listeners
        = lview 1 (emitGo pathMatchLit
          ⟨[("t", [⟨0, []⟩, ⟨1, []⟩])], 1, [],
            [(0, ⟨1, []⟩), (1, ⟨1, []⟩)], [], 2⟩ "t" []).st.listeners
      ∧ exceptCh 1 (emitGo pathMatchLit
          ⟨[("t", [⟨0, []⟩, ⟨1, [Void]⟩])], 1, [],
            [(0, ⟨1, []⟩), (1, ⟨1, []⟩)], [], 2⟩ "t" []).st.chans
        = exceptCh 1 (emitGo pathMatchLit
          ⟨[("t", [⟨0, []⟩, ⟨1, []⟩])], 1, [],
            [(0, ⟨1, []⟩), (1, ⟨1, []⟩)], [], 2⟩ "t" []).st.chans
      ∧ exceptSends 1 (emitGo pathMatchLit
          ⟨[("t", [⟨0, []⟩, ⟨1, [Void]⟩])], 1, [],
            [(0, ⟨1, []⟩), (1, ⟨1, []⟩)], [], 2⟩ "t" []).sends
        = exceptSends 1 (emitGo pathMatchLit
          ⟨[("t", [⟨0, []⟩, ⟨1, []⟩])], 1, [],
            [(0, ⟨1, []⟩), (1, ⟨1, []⟩)], [], 2⟩ "t" []).sends) :=
  ⟨by decide, by decide, by decide, by decide, by decide,
    c8_per_listener_isolation pathMatchLit "t" "t" [] 1 []
      [(0, ⟨1, []⟩), (1, ⟨1, []⟩)] [] 2 [⟨0, []⟩] [] ⟨1, [Void]⟩ ⟨1, []⟩ 1
      rfl rfl (by decide)
      ⟨[("t", [⟨0, []⟩, ⟨1, [Void]⟩])], 1, [],
        [(0, ⟨1, []⟩), (1, ⟨1, []⟩)], [], 2⟩
      ⟨[("t", [⟨0, []⟩, ⟨1, []⟩])], 1, [],
        [(0, ⟨1, []⟩), (1, ⟨1, []⟩)], [], 2⟩
      rfl rfl (by decide) (by decide) (by decide) (by decide)⟩

end Emitter
